import Mathlib

/-!
# memoryrescue: a self-calibrating byte-buffer pool

A shallow embedding of `buffpool.go` and `memoryrescue.go`.

* Go `int` values that may become negative (`n` in `findIndex`, the converted
  `maxSize` in `Put`) are modelled by `Int`; `uint64` cells are `Nat` with an
  explicit `% 2^64` wherever the source performs arithmetic on them.
* A Go slice is modelled by its visible bytes together with its capacity.
* A run-time panic (index out of range) is modelled by `none`.
* `sort.Sort` and the slice growth policy of `append` belong to the Go runtime;
  they are parameters (`SortImpl`, `GrowPolicy`) constrained by their contracts.
* An `io.Reader` is the finite script of chunks it delivers before its error
  (`Reader`); `float64` arithmetic is modelled exactly on natural numbers
  (`roundTo53`, `percentileOf`).
-/

set_option autoImplicit false

namespace memoryrescue

/-! ## Constants (`buffpool.go`, lines 9-16) -/

def minimumBitSize : Nat := 6

def steps : Nat := 20

def minimumSize : Nat := 1 <<< minimumBitSize

def maximumSize : Nat := 1 <<< (minimumBitSize + steps - 1)

def calibrateCallsThreshold : Nat := 42000

/-- Modulus of `uint64` arithmetic. -/
def u64 : Nat := 2 ^ 64

/-! ## `findIndex` (`buffpool.go`, lines 111-126) -/

/-- The loop `for n > 0 { n >>= 1; index++ }`. The first argument bounds the
number of iterations; `findIndexLoop_fuel` shows that the bound used by
`findIndex` is never reached. -/
def findIndexLoop : Nat → Int → Nat → Nat
  | 0, _, index => index
  | fuel + 1, n, index =>
    if n > 0 then findIndexLoop fuel (n >>> (1 : Nat)) (index + 1) else index

/-- Embedding of `findIndex(n int) int`. The result is a count of loop
iterations, hence kept in `Nat`. -/
def findIndex (n : Int) : Nat :=
  let n := n - 1
  let n := n >>> minimumBitSize
  let index := findIndexLoop n.toNat n 0
  if index > steps then steps - 1 else index

/-! ## The growable buffer (`memoryrescue.go`) -/

/-- A Go `[]byte` value: the bytes visible through the slice and the capacity
of its backing array. -/
structure ByteSlice where
  data : List UInt8
  cap : Nat
deriving DecidableEq, Repr

/-- Go `len(s)`. -/
def ByteSlice.len (s : ByteSlice) : Nat := s.data.length

/-- The slice invariant of the Go runtime: `len(s) <= cap(s)`. -/
def ByteSlice.WF (s : ByteSlice) : Prop := s.data.length ≤ s.cap

/-- Go `s[:0]`: same backing array, no visible bytes. -/
def ByteSlice.truncate (s : ByteSlice) : ByteSlice := { data := [], cap := s.cap }

/-- Go `make([]byte, 0, n)`: no visible bytes, capacity exactly `n`. Failure
to allocate is outside the model. -/
def ByteSlice.make (n : Nat) : ByteSlice := { data := [], cap := n }

/-- The capacity chosen by the Go runtime when `append` has to reallocate:
a function of the old capacity and the required length, returning at least
the required length. -/
structure GrowPolicy where
  grow : Nat → Nat → Nat
  grow_ge : ∀ old need, need ≤ grow old need

/-- A growth policy that allocates exactly what is required. -/
def exactGrow : GrowPolicy := { grow := fun _ need => need, grow_ge := fun _ _ => le_refl _ }

/-- Go `append(s, xs...)`: in place when the capacity suffices, otherwise into
a reallocated backing array. -/
def ByteSlice.append (G : GrowPolicy) (s : ByteSlice) (xs : List UInt8) : ByteSlice :=
  if s.data.length + xs.length ≤ s.cap then
    { data := s.data ++ xs, cap := s.cap }
  else
    { data := s.data ++ xs, cap := G.grow s.cap (s.data.length + xs.length) }

/-- A Go `string`, as its sequence of bytes. -/
abbrev GoString := List UInt8

/-- Embedding of `type Buffer struct { buff []byte }`. -/
structure Buffer where
  buff : ByteSlice
deriving DecidableEq, Repr

namespace Buffer

/-- Embedding of `func (bf *Buffer) Len() int`. -/
def Len (bf : Buffer) : Nat := bf.buff.len

/-- Embedding of `func (bf *Buffer) Bytes() []byte`. -/
def Bytes (bf : Buffer) : List UInt8 := bf.buff.data

/-- Go `cap(bf.buff)`. -/
def Cap (bf : Buffer) : Nat := bf.buff.cap

/-- Embedding of `func (bf *Buffer) String() string`. -/
def String (bf : Buffer) : GoString := bf.buff.data

/-- Embedding of `func (bf *Buffer) Reset()`. -/
def Reset (bf : Buffer) : Buffer := { buff := bf.buff.truncate }

/-- Embedding of `func (bf *Buffer) Write(p []byte) (int, error)`; the error is
always `nil` and is left out. -/
def Write (G : GrowPolicy) (bf : Buffer) (p : List UInt8) : Buffer × Nat :=
  ({ buff := bf.buff.append G p }, p.length)

/-- Embedding of `func (bf *Buffer) WriteByte(bt byte) error`. -/
def WriteByte (G : GrowPolicy) (bf : Buffer) (bt : UInt8) : Buffer :=
  { buff := bf.buff.append G [bt] }

/-- Embedding of `func (bf *Buffer) WriteString(str string) (int, error)`. -/
def WriteString (G : GrowPolicy) (bf : Buffer) (str : GoString) : Buffer × Nat :=
  ({ buff := bf.buff.append G str }, str.length)

/-- Embedding of `func (bf *Buffer) Set(bytes []byte)`. -/
def Set (G : GrowPolicy) (bf : Buffer) (bytes : List UInt8) : Buffer :=
  { buff := bf.buff.truncate.append G bytes }

/-- Embedding of `func (bf *Buffer) SetString(str string)`. -/
def SetString (G : GrowPolicy) (bf : Buffer) (str : GoString) : Buffer :=
  { buff := bf.buff.truncate.append G str }

end Buffer

/-! ## The pool (`buffpool.go`) -/

/-- Embedding of `type callSize struct { calls uint64; size uint64 }`. -/
structure callSize where
  calls : Nat
  size : Nat
deriving DecidableEq, Repr

/-- Embedding of `type callSizes []callSize`. -/
abbrev callSizes := List callSize

/-- The comparison of `callSizes.Less(i, j)`, on the two elements `ci[i]` and
`ci[j]` it reads: more calls sorts first. -/
def callSize.Less (x y : callSize) : Prop := x.calls > y.calls

instance (x y : callSize) : Decidable (callSize.Less x y) :=
  inferInstanceAs (Decidable (x.calls > y.calls))

/-- The contract of `sort.Sort(a)` for `callSizes`: the result is a
rearrangement of `a` in which no later element is `Less` than an earlier one.
The order of elements with equal call counts is not determined (the sort is
not stable). -/
structure SortImpl where
  sort : callSizes → callSizes
  perm : ∀ a, (sort a).Perm a
  sorted : ∀ a, (sort a).Pairwise (fun x y => ¬ callSize.Less y x)

/-- Embedding of `type BuffPool struct`. The field `pool` holds the buffers
currently kept by the `sync.Pool`. -/
structure BuffPool where
  calls : Fin steps → Nat
  calibrating : Int
  defaultSize : Nat
  maxSize : Nat
  pool : List Buffer

/-- The zero value of `BuffPool`, as of `var defaultPool BuffPool`. -/
def BuffPool.empty : BuffPool :=
  { calls := fun _ => 0, calibrating := 0, defaultSize := 0, maxSize := 0, pool := [] }

/-- Counts the binary digits of `n` that remain to be counted, at most `fuel`
of them. -/
def bitLengthLoop : Nat → Nat → Nat → Nat
  | 0, _, acc => acc
  | fuel + 1, n, acc => if n > 0 then bitLengthLoop fuel (n / 2) (acc + 1) else acc

/-- The number of binary digits of `n`. -/
def bitLength (n : Nat) : Nat := bitLengthLoop n n 0

/-- Rounding of a natural number to 53 significant bits, ties to even: the
rounding of IEEE-754 binary64, for values in the normal range. -/
def roundTo53 (n : Nat) : Nat :=
  if n < 2 ^ 53 then n
  else
    let d := bitLength n - 53
    let q := n >>> d
    let r := n % 2 ^ d
    let half := 2 ^ (d - 1)
    let q := if r > half ∨ (r = half ∧ q % 2 = 1) then q + 1 else q
    q * 2 ^ d

/-- The significand of the `float64` nearest to the constant
`maximumPercentile = 0.95`, which is `maximumPercentileBits / 2^53`. -/
def maximumPercentileBits : Nat := 8556839292003942

/-- Embedding of `uint64(float64(callSum) * maximumPercentile)`: conversion to
`float64`, one rounded multiplication, truncation towards zero. -/
def percentileOf (callSum : Nat) : Nat :=
  roundTo53 (roundTo53 callSum * maximumPercentileBits) / 2 ^ 53

/-- The first loop of `calibrate`: the slice `a` of the drained counters with
their class sizes `minimumSize << i`. -/
def snapshot (calls : Fin steps → Nat) : callSizes :=
  (List.finRange steps).map (fun i => { calls := calls i, size := minimumSize <<< i.val })

/-- The running `callSum += calls` of the first loop of `calibrate`, in
`uint64` arithmetic. -/
def sumCalls (a : callSizes) : Nat :=
  a.foldl (fun s c => (s + c.calls) % u64) 0

/-- The second loop of `calibrate`, over the remaining elements `a[i], ...` of
the sorted slice, from the current `callSum` and `maximumSize`. -/
def accumulate (maxSum : Nat) : callSizes → Nat → Nat → Nat
  | [], _, maximumSize => maximumSize
  | c :: rest, callSum, maximumSize =>
    if callSum > maxSum then maximumSize
    else
      accumulate maxSum rest ((callSum + c.calls) % u64)
        (if c.size > maximumSize then c.size else maximumSize)

/-- Go `int(u)` for a `uint64` value `u`. -/
def toInt (u : Nat) : Int :=
  if u % u64 < 2 ^ 63 then ((u % u64 : Nat) : Int) else ((u % u64 : Nat) : Int) - (u64 : Int)

namespace BuffPool

/-- Embedding of `func (p *BuffPool) calibrate()`, run without interference
from other goroutines. `a[0]` is the head of the sorted slice, which has
`steps` elements (`sorted_snapshot_length`). -/
def calibrate (S : SortImpl) (p : BuffPool) : BuffPool :=
  if p.calibrating ≠ 0 then p
  else
    let a0 := snapshot p.calls
    let callSum := sumCalls a0
    let a := S.sort a0
    let defaultSize := (a.headD { calls := 0, size := 0 }).size
    let maxSum := percentileOf callSum
    let maximumSize := accumulate maxSum a 0 defaultSize
    { calls := fun _ => 0, calibrating := 0, defaultSize := defaultSize,
      maxSize := maximumSize, pool := p.pool }

/-- Embedding of `sync.Pool.Get` with no `New` function: it removes and returns
an arbitrary item, or returns `nil`. The argument `choice` resolves the
arbitrary choice: `some i` asks for the item at position `i`, `none` makes the
pool behave as empty. -/
def poolGet (cache : List Buffer) (choice : Option Nat) : Option Buffer × List Buffer :=
  match choice with
  | none => (none, cache)
  | some i =>
    match cache.get? i with
    | some v => (some v, cache.eraseIdx i)
    | none => (none, cache)

/-- Embedding of `func (p *BuffPool) Get() *Buffer`. -/
def Get (p : BuffPool) (choice : Option Nat) : Buffer × BuffPool :=
  match poolGet p.pool choice with
  | (some v, rest) => (v, { p with pool := rest })
  | (none, rest) => ({ buff := ByteSlice.make p.defaultSize }, { p with pool := rest })

/-- The first statement pair of `Put`: the counter increment at `index` and
the calibration it may trigger. -/
def bump (S : SortImpl) (p : BuffPool) (index : Fin steps) : BuffPool :=
  let v := (p.calls index + 1) % u64
  let p1 := { p with calls := Function.update p.calls index v }
  if v > calibrateCallsThreshold then p1.calibrate S else p1

/-- The retention decision of `Put` (lines 66-71), on the pool as left by the
increment and calibration. -/
def retain (p : BuffPool) (bf : Buffer) : BuffPool :=
  let maxSize := toInt p.maxSize
  if maxSize = 0 ∨ (bf.Cap : Int) < maxSize then
    { p with pool := bf.Reset :: p.pool }
  else p

/-- Embedding of `func (p *BuffPool) Put(bf *Buffer)`. The result is `none`
when `p.calls[index]` is an index out of range, a run-time panic. -/
def Put (S : SortImpl) (p : BuffPool) (bf : Buffer) : Option BuffPool :=
  let index := findIndex (bf.Len : Int)
  if h : index < steps then some (retain (bump S p ⟨index, h⟩) bf) else none

end BuffPool

/-- The order in which `sort.Sort` may leave two elements: the first has at
least as many calls as the second. -/
def callSize.ge (x y : callSize) : Prop := x.calls ≥ y.calls

instance : DecidableRel callSize.ge := fun x y =>
  inferInstanceAs (Decidable (x.calls ≥ y.calls))

instance : IsTotal callSize callSize.ge := ⟨fun x y => Nat.le_total y.calls x.calls⟩

instance : IsTrans callSize callSize.ge :=
  ⟨fun x y z (hxy : y.calls ≤ x.calls) (hyz : z.calls ≤ y.calls) => Nat.le_trans hyz hxy⟩

/-- The insertion sort on `callSizes`, most calls first: one implementation of
the contract `SortImpl`. -/
def insertionSortImpl : SortImpl where
  sort := List.insertionSort callSize.ge
  perm := fun a => List.perm_insertionSort _ a
  sorted := fun a => by
    have h := List.sorted_insertionSort callSize.ge a
    refine List.Pairwise.imp ?_ h
    intro x y hxy
    simp only [callSize.Less, not_lt, gt_iff_lt]
    exact hxy

/-- The pool states that sequential use can produce: from the zero value, by
`Get`, by a `Put` that returns, by a calibration pass, and by the `sync.Pool`
dropping one of the buffers it holds. -/
inductive Reachable (S : SortImpl) : BuffPool → Prop
  | init : Reachable S BuffPool.empty
  | get {p : BuffPool} (choice : Option Nat) : Reachable S p → Reachable S (p.Get choice).2
  | put {p q : BuffPool} (bf : Buffer) : Reachable S p → p.Put S bf = some q → Reachable S q
  | calibrate {p : BuffPool} : Reachable S p → Reachable S (p.calibrate S)
  | drop {p : BuffPool} (i : Nat) : Reachable S p →
      Reachable S { p with pool := p.pool.eraseIdx i }

/-- A sequence of `Put` calls, one after the other; `none` as soon as one of
them panics. -/
def runPuts (S : SortImpl) : BuffPool → List Buffer → Option BuffPool
  | p, [] => some p
  | p, bf :: rest =>
    match p.Put S bf with
    | some q => runPuts S q rest
    | none => none

/-- A buffer holding `n` zero bytes in a backing array of capacity `c`. -/
def zeroBuffer (n c : Nat) : Buffer := { buff := { data := List.replicate n 0, cap := c } }

/-- A size-class boundary: `64 * 2^i` for some `i` in `0..19`. -/
def IsClassSize (x : Nat) : Prop := ∃ i : Nat, i ≤ 19 ∧ x = 64 * 2 ^ i

/-! ## `ReadFrom` (`memoryrescue.go`, lines 21-55) -/

/-- A Go `error` value returned by a reader: `io.EOF` or some other error. -/
inductive GoError where
  | EOF
  | other (code : Nat)
deriving DecidableEq, Repr

/-- An `io.Reader` that delivers a finite sequence of chunks, each with a nil
error, and then the bytes `last` together with the error `err`. -/
structure Reader where
  chunks : List (List UInt8)
  last : List UInt8
  err : GoError

namespace Reader

/-- One call `reader.Read(buf)` with `len(buf) = avail`: the bytes written to
the front of `buf`, the error, and the reader afterwards. A pending chunk that
does not fit is delivered in part, with a nil error, and its rest stays
pending. -/
def Read (r : Reader) (avail : Nat) : List UInt8 × Option GoError × Reader :=
  match r.chunks with
  | c :: cs =>
    if c.length ≤ avail then (c, none, { r with chunks := cs })
    else (c.take avail, none, { r with chunks := c.drop avail :: cs })
  | [] =>
    if r.last.length ≤ avail then (r.last, some r.err, { r with last := [] })
    else (r.last.take avail, none, { r with last := r.last.drop avail })

/-- All the bytes the reader delivers, in order. -/
def all (r : Reader) : List UInt8 := r.chunks.foldr (fun c acc => c ++ acc) r.last

/-- A bound on the number of `Read` calls (each into at least one byte) that
return a nil error. -/
def size (r : Reader) : Nat := r.chunks.length + r.all.length

end Reader

instance (s : ByteSlice) : Decidable s.WF :=
  inferInstanceAs (Decidable (s.data.length ≤ s.cap))

/-- Go `copy(dst, src)`: the contents of `dst` afterwards. -/
def goCopy (dst src : List UInt8) : List UInt8 := src.take dst.length ++ dst.drop src.length

/-- The `for` loop of `ReadFrom`, on the slice `p` (of length `max`) and the
count `n`; it returns `p`, `n`, `max` and the error at the `return`. The first
argument bounds the number of iterations. -/
def ReadFromLoop :
    Nat → Reader → List UInt8 → Nat → Nat → Option (List UInt8 × Nat × Nat × GoError)
  | 0, _, _, _, _ => none
  | fuel + 1, reader, p, n, max =>
    let max1 := if n = max then max * 2 else max
    let p1 := if n = max then goCopy (List.replicate max1 0) p else p
    match reader.Read (p1.drop n).length with
    | (bytes, err, reader1) =>
      let p2 := p1.take n ++ goCopy (p1.drop n) bytes
      let n1 := n + bytes.length
      match err with
      | some e => some (p2, n1, max1, e)
      | none => ReadFromLoop fuel reader1 p2 n1 max1

/-- Embedding of `func (bf *Buffer) ReadFrom(reader io.Reader) (int64, error)`:
the buffer afterwards, the count and the error (`none` is `nil`). The bytes of
the backing array between `len` and `cap`, which `p[:max]` exposes and which are
overwritten or cut off again, are taken to be zero. The loop is given
`reader.size + 1` iterations, which `ReadFromLoop_spec` shows to be enough. -/
def Buffer.ReadFrom (bf : Buffer) (reader : Reader) : Option (Buffer × Int × Option GoError) :=
  let p := bf.buff
  let start := p.len
  let max := p.cap
  let n := start
  let max0 := if max = 0 then 64 else max
  let p0 := if max = 0 then List.replicate 64 0
    else p.data ++ List.replicate (max - p.data.length) 0
  match ReadFromLoop (reader.size + 1) reader p0 n max0 with
  | none => none
  | some (p1, n1, max1, e) =>
    some ({ buff := { data := p1.take n1, cap := max1 } }, (n1 : Int) - (start : Int),
      if e = GoError.EOF then none else some e)

/-- A reader with two chunks and a last chunk delivered with `io.EOF`. -/
def sampleReader : Reader :=
  { chunks := [[1, 2, 3], List.replicate 70 7], last := [9], err := GoError.EOF }

/-! ## The classes the second loop of `calibrate` goes through -/

/-- The value of `callSum` after the second loop of `calibrate` has gone
through the elements of `a`, starting from `callSum`. -/
def runningSum (callSum : Nat) (a : callSizes) : Nat :=
  a.foldl (fun s c => (s + c.calls) % u64) callSum

/-- The number of elements of `a` the second loop of `calibrate` goes through
before its `break` (or the end of the slice), starting from `callSum`. -/
def touchedCount (maxSum : Nat) : callSizes → Nat → Nat
  | [], _ => 0
  | c :: rest, callSum =>
    if callSum > maxSum then 0 else 1 + touchedCount maxSum rest ((callSum + c.calls) % u64)

/-- Following the claim's words: the largest class size among the shortest
prefix of the sorted list whose cumulative count is at least 95% of `total`,
accumulation stopping as soon as the running sum has reached 95% of `total`;
`largest` is the largest size so far. -/
def maxSizeBySpec (total : Nat) : callSizes → Nat → Nat → Nat
  | [], _, largest => largest
  | c :: rest, sum, largest =>
    if 100 * sum ≥ 95 * total then largest
    else maxSizeBySpec total rest (sum + c.calls) (if c.size > largest then c.size else largest)

/-- The total of the 20 counters. -/
def totalCalls (calls : Fin steps → Nat) : Nat := ((List.finRange steps).map calls).sum

/-- The total of the counters of the size classes whose size is at most
`maxSize`. -/
def coveredCalls (calls : Fin steps → Nat) (maxSize : Nat) : Nat :=
  (((List.finRange steps).filter (fun i => 64 * 2 ^ i.val ≤ maxSize)).map calls).sum

/-- An implementation of the contract `SortImpl` that leaves elements with
equal call counts in the opposite order of `insertionSortImpl`. -/
def reversedSortImpl : SortImpl where
  sort := fun a => List.insertionSort callSize.ge a.reverse
  perm := fun a => (List.perm_insertionSort _ a.reverse).trans (List.reverse_perm a)
  sorted := fun a => by
    have h := List.sorted_insertionSort callSize.ge a.reverse
    refine List.Pairwise.imp ?_ h
    intro x y hxy
    simp only [callSize.Less, not_lt, gt_iff_lt]
    exact hxy

/-- A pool with 95 calls counted in bucket 0 and 5 in bucket 1. -/
def exactly95 : BuffPool :=
  { calls := fun i => if i.val = 0 then 95 else if i.val = 1 then 5 else 0, calibrating := 0,
    defaultSize := 0, maxSize := 0, pool := [] }

/-- A pool with 92 calls counted in bucket 0, 4 in bucket 1 and 4 in bucket 2. -/
def tied4 : BuffPool :=
  { calls := fun i => if i.val = 0 then 92 else if i.val = 1 then 4 else if i.val = 2 then 4
      else 0,
    calibrating := 0, defaultSize := 0, maxSize := 0, pool := [] }

/-! ## Pools and buckets used in the scenarios -/

/-- A pool whose counters total `2^55`: `34227357168015769` calls in bucket 0
and the remaining `1801439850948199` in bucket 1. -/
def huge55 : BuffPool :=
  { calls := fun i => if i.val = 0 then 34227357168015769
      else if i.val = 1 then 1801439850948199 else 0,
    calibrating := 0, defaultSize := 0, maxSize := 0, pool := [] }


/-- The bucket of length 100 (size class 128). -/
def bucket100 : Fin steps := ⟨1, by decide⟩

/-- The bucket of length 4000 (size class 4096). -/
def bucket4000 : Fin steps := ⟨6, by decide⟩

/-- The two sizes of a pool are 0 or size-class boundaries. -/
def SizesOK (p : BuffPool) : Prop :=
  (p.defaultSize = 0 ∨ IsClassSize p.defaultSize) ∧ (p.maxSize = 0 ∨ IsClassSize p.maxSize)

/-- The counters after 42,001 `Put`s of buffers of length 100. -/
def full100 : Fin steps → Nat := fun i => if i = bucket100 then 42001 else 0

/-- A pool with `maxSize = 64` whose counter of bucket 1 stands at the
threshold. -/
def atThreshold64 : BuffPool :=
  { calls := fun i => if i.val = 1 then 42000 else 0, calibrating := 0, defaultSize := 64,
    maxSize := 64, pool := [] }

/-- A pool with `maxSize = 64` and all counters 0. -/
def quiet64 : BuffPool :=
  { calls := fun _ => 0, calibrating := 0, defaultSize := 64, maxSize := 64, pool := [] }

/-! ## Basic facts -/

@[simp] theorem zeroBuffer_Len (n c : Nat) : (zeroBuffer n c).Len = n := by
  simp [zeroBuffer, Buffer.Len, ByteSlice.len]

@[simp] theorem zeroBuffer_Cap (n c : Nat) : (zeroBuffer n c).Cap = c := rfl

@[simp] theorem zeroBuffer_Reset (n c : Nat) : (zeroBuffer n c).Reset = zeroBuffer 0 c := rfl

theorem Reset_Len (bf : Buffer) : bf.Reset.Len = 0 := rfl

/-! ## Claims about the buffer -/

/-- C9: after `Reset` the buffer has length 0, `Bytes()` is empty, and the
capacity is the one it had before, hence not smaller. -/
theorem Reset_clears_length_keeps_capacity (bf : Buffer) :
    bf.Reset.Len = 0 ∧ bf.Reset.Bytes = [] ∧ bf.Reset.Cap = bf.Cap ∧ bf.Cap ≤ bf.Reset.Cap :=
  ⟨rfl, rfl, rfl, le_refl _⟩

theorem truncate_append_data (G : GrowPolicy) (s : ByteSlice) (xs : List UInt8) :
    (s.truncate.append G xs).data = xs := by
  unfold ByteSlice.append ByteSlice.truncate
  split <;> simp

/-- C10: whatever the buffer held, after `Set(x)` its bytes are exactly `x`,
its length is `len(x)` and `String()` is the string of the bytes of `x`; and
`SetString(s)` followed by `String()` gives `s`. -/
theorem Set_then_read_roundtrip (G : GrowPolicy) (bf : Buffer) (x : List UInt8) (s : GoString) :
    (bf.Set G x).Bytes = x ∧ (bf.Set G x).Len = x.length ∧ (bf.Set G x).String = x ∧
      (bf.SetString G s).String = s := by
  refine ⟨?_, ?_, ?_, ?_⟩
  · exact truncate_append_data G bf.buff x
  · show (bf.buff.truncate.append G x).data.length = x.length
    rw [truncate_append_data]
  · exact truncate_append_data G bf.buff x
  · exact truncate_append_data G bf.buff s

/-! ## `findIndex` -/

/-- The bound on the iterations of the loop of `findIndex` is never reached:
any larger bound gives the same result. -/
theorem findIndexLoop_fuel :
    ∀ (fuel more : Nat) (n : Int) (index : Nat), n.toNat ≤ fuel → n.toNat ≤ more →
      findIndexLoop fuel n index = findIndexLoop more n index := by
  intro fuel
  induction fuel with
  | zero =>
    intro more n index h _
    have hn : ¬ n > 0 := by omega
    cases more with
    | zero => rfl
    | succ m => simp only [findIndexLoop, if_neg hn]
  | succ f ih =>
    intro more n index h1 h2
    by_cases hn : n > 0
    · cases more with
      | zero => omega
      | succ m =>
        simp only [findIndexLoop, if_pos hn]
        have hs : n >>> (1 : Nat) = n / 2 := by
          rw [Int.shiftRight_eq_div_pow]; rfl
        apply ih
        · rw [hs]; omega
        · rw [hs]; omega
    · cases more with
      | zero => simp only [findIndexLoop, if_neg hn]
      | succ m => simp only [findIndexLoop, if_neg hn]

/-- C1 (the code departs from it): the length `2^25 + 1 = 33554433`, one byte
beyond the last size class, is classified as bucket 20, which is not an index
of the 20 counters, and `Put` of a buffer of that length panics. -/
theorem findIndex_past_last_class_is_steps (S : SortImpl) (p : BuffPool) :
    findIndex 33554433 = 20 ∧ ¬ findIndex 33554433 ≤ 19 ∧
      BuffPool.Put S p (zeroBuffer 33554433 33554433) = none := by
  have h : findIndex 33554433 = 20 := by decide
  refine ⟨h, by rw [h]; decide, ?_⟩
  unfold BuffPool.Put
  simp only [zeroBuffer_Len]
  have h2 : findIndex ((33554433 : Nat) : Int) = 20 := h
  rw [dif_neg]
  rw [h2]; decide

/-! ## `Get` -/

/-- C8: with an empty cache, `Get` returns a fresh buffer of length 0 whose
capacity is the current `defaultSize`, and leaves the pool (counters,
`defaultSize`, `maxSize`, `calibrating`) as it was. -/
theorem Get_on_empty_cache_allocates_defaultSize (p : BuffPool) (choice : Option Nat)
    (h : p.pool = []) :
    (p.Get choice).1.Len = 0 ∧ (p.Get choice).1.Cap = p.defaultSize ∧
      (p.Get choice).2.calls = p.calls ∧ (p.Get choice).2.defaultSize = p.defaultSize ∧
      (p.Get choice).2.maxSize = p.maxSize ∧ (p.Get choice).2.calibrating = p.calibrating ∧
      (p.Get choice).2 = p := by
  have hg : BuffPool.poolGet p.pool choice = (none, p.pool) := by
    rw [h]
    cases choice <;> simp [BuffPool.poolGet]
  have hG : p.Get choice = ({ buff := ByteSlice.make p.defaultSize }, p) := by
    unfold BuffPool.Get
    rw [hg]
  rw [hG]
  exact ⟨rfl, rfl, rfl, rfl, rfl, rfl, rfl⟩

theorem Get_on_empty_cache_allocates_defaultSize_witness :
    BuffPool.empty.pool = [] ∧ (BuffPool.empty.Get (some 0)).1.Len = 0 ∧
      (BuffPool.empty.Get (some 0)).1.Cap = 0 :=
  ⟨rfl, (Get_on_empty_cache_allocates_defaultSize BuffPool.empty (some 0) rfl).1,
    (Get_on_empty_cache_allocates_defaultSize BuffPool.empty (some 0) rfl).2.1⟩

/-! ## `Put` below the calibration threshold -/

theorem retain_calls (p : BuffPool) (bf : Buffer) : (p.retain bf).calls = p.calls := by
  simp only [BuffPool.retain]
  split <;> rfl

theorem retain_defaultSize (p : BuffPool) (bf : Buffer) :
    (p.retain bf).defaultSize = p.defaultSize := by
  simp only [BuffPool.retain]
  split <;> rfl

theorem retain_maxSize (p : BuffPool) (bf : Buffer) : (p.retain bf).maxSize = p.maxSize := by
  simp only [BuffPool.retain]
  split <;> rfl

theorem retain_calibrating (p : BuffPool) (bf : Buffer) :
    (p.retain bf).calibrating = p.calibrating := by
  simp only [BuffPool.retain]
  split <;> rfl

/-- A counter increment that stays within the threshold does not calibrate. -/
theorem bump_below_threshold (S : SortImpl) (p : BuffPool) (i : Fin steps)
    (h : p.calls i + 1 ≤ calibrateCallsThreshold) :
    p.bump S i = { p with calls := Function.update p.calls i (p.calls i + 1) } := by
  have hlt : p.calls i + 1 < u64 := by
    have : calibrateCallsThreshold < u64 := by decide
    omega
  unfold BuffPool.bump
  simp only [Nat.mod_eq_of_lt hlt]
  rw [if_neg (by omega)]

theorem Put_of_index (S : SortImpl) (p : BuffPool) (bf : Buffer) (i : Fin steps)
    (hi : findIndex (bf.Len : Int) = i.val) :
    p.Put S bf = some ((p.bump S i).retain bf) := by
  unfold BuffPool.Put
  have h : findIndex (bf.Len : Int) < steps := by rw [hi]; exact i.isLt
  simp only [dif_pos h]
  have : (⟨findIndex (bf.Len : Int), h⟩ : Fin steps) = i := Fin.ext hi
  rw [this]

/-- A `Put` whose counter stays within the threshold returns, counts the
buffer in its bucket and changes neither size nor the flag. -/
theorem Put_below_threshold (S : SortImpl) (p : BuffPool) (bf : Buffer) (i : Fin steps)
    (hi : findIndex (bf.Len : Int) = i.val) (h : p.calls i + 1 ≤ calibrateCallsThreshold) :
    ∃ q, p.Put S bf = some q ∧ q.calls = Function.update p.calls i (p.calls i + 1) ∧
      q.defaultSize = p.defaultSize ∧ q.maxSize = p.maxSize ∧
      q.calibrating = p.calibrating := by
  refine ⟨_, Put_of_index S p bf i hi, ?_, ?_, ?_, ?_⟩
  · rw [retain_calls, bump_below_threshold S p i h]
  · rw [retain_defaultSize, bump_below_threshold S p i h]
  · rw [retain_maxSize, bump_below_threshold S p i h]
  · rw [retain_calibrating, bump_below_threshold S p i h]

/-- Sequences of `Put`s of buffers of length 100 and 4000 that keep both
counters within the threshold: no `Put` panics, none calibrates, and the two
counters count the buffers of each length. -/
theorem runPuts_two_classes (S : SortImpl) :
    ∀ (bs : List Buffer) (p : BuffPool),
      (∀ b ∈ bs, b.Len = 100 ∨ b.Len = 4000) →
      p.calls bucket100 + bs.countP (fun b => b.Len = 100) ≤ calibrateCallsThreshold →
      p.calls bucket4000 + bs.countP (fun b => b.Len = 4000) ≤ calibrateCallsThreshold →
      ∃ q, runPuts S p bs = some q ∧ q.defaultSize = p.defaultSize ∧ q.maxSize = p.maxSize ∧
        q.calibrating = p.calibrating ∧
        q.calls bucket100 = p.calls bucket100 + bs.countP (fun b => b.Len = 100) ∧
        q.calls bucket4000 = p.calls bucket4000 + bs.countP (fun b => b.Len = 4000) ∧
        ∀ i, i ≠ bucket100 → i ≠ bucket4000 → q.calls i = p.calls i := by
  intro bs
  induction bs with
  | nil =>
    intro p _ _ _
    exact ⟨p, rfl, rfl, rfl, rfl, by simp, by simp, fun _ _ _ => rfl⟩
  | cons b rest ih =>
    intro p hlen h1 h6
    have hb := hlen b (List.mem_cons_self _ _)
    have hrest : ∀ c ∈ rest, c.Len = 100 ∨ c.Len = 4000 :=
      fun c hc => hlen c (List.mem_cons_of_mem _ hc)
    have hne : bucket4000 ≠ bucket100 := by decide
    rcases hb with hb | hb
    · have hidx : findIndex (b.Len : Int) = bucket100.val := by
        rw [hb]; decide
      have hc1 : (b :: rest).countP (fun b => b.Len = 100)
          = rest.countP (fun b => b.Len = 100) + 1 := by
        rw [List.countP_cons_of_pos]; simpa using hb
      have hc6 : (b :: rest).countP (fun b => b.Len = 4000)
          = rest.countP (fun b => b.Len = 4000) := by
        rw [List.countP_cons_of_neg]; simp [hb]
      rw [hc1] at h1 ⊢
      rw [hc6] at h6 ⊢
      obtain ⟨q0, hput, hcalls, hd0, hm0, hcal0⟩ :=
        Put_below_threshold S p b bucket100 hidx (by omega)
      have e1 : q0.calls bucket100 = p.calls bucket100 + 1 := by
        rw [hcalls, Function.update_same]
      have e6 : q0.calls bucket4000 = p.calls bucket4000 := by
        rw [hcalls, Function.update_noteq hne]
      obtain ⟨q, hq, hd, hm, hcal, hq1, hq6, hqo⟩ := ih q0 hrest (by omega) (by omega)
      refine ⟨q, ?_, ?_, ?_, ?_, ?_, ?_, ?_⟩
      · simp only [runPuts, hput]; exact hq
      · rw [hd, hd0]
      · rw [hm, hm0]
      · rw [hcal, hcal0]
      · omega
      · omega
      · intro i hi1 hi6
        rw [hqo i hi1 hi6, hcalls, Function.update_noteq hi1]
    · have hidx : findIndex (b.Len : Int) = bucket4000.val := by
        rw [hb]; decide
      have hc1 : (b :: rest).countP (fun b => b.Len = 100)
          = rest.countP (fun b => b.Len = 100) := by
        rw [List.countP_cons_of_neg]; simp [hb]
      have hc6 : (b :: rest).countP (fun b => b.Len = 4000)
          = rest.countP (fun b => b.Len = 4000) + 1 := by
        rw [List.countP_cons_of_pos]; simpa using hb
      rw [hc1] at h1 ⊢
      rw [hc6] at h6 ⊢
      obtain ⟨q0, hput, hcalls, hd0, hm0, hcal0⟩ :=
        Put_below_threshold S p b bucket4000 hidx (by omega)
      have e1 : q0.calls bucket100 = p.calls bucket100 := by
        rw [hcalls, Function.update_noteq hne.symm]
      have e6 : q0.calls bucket4000 = p.calls bucket4000 + 1 := by
        rw [hcalls, Function.update_same]
      obtain ⟨q, hq, hd, hm, hcal, hq1, hq6, hqo⟩ := ih q0 hrest (by omega) (by omega)
      refine ⟨q, ?_, ?_, ?_, ?_, ?_, ?_, ?_⟩
      · simp only [runPuts, hput]; exact hq
      · rw [hd, hd0]
      · rw [hm, hm0]
      · rw [hcal, hcal0]
      · omega
      · omega
      · intro i hi1 hi6
        rw [hqo i hi1 hi6, hcalls, Function.update_noteq hi6]

/-! ## The scenario of 30,000 and 15,000 `Put`s -/

theorem countP_two_blocks (n m : Nat) (a b : Buffer) (P : Buffer → Bool) :
    (List.replicate n a ++ List.replicate m b).countP P
      = (if P a = true then n else 0) + (if P b = true then m else 0) := by
  rw [List.countP_append, List.countP_replicate, List.countP_replicate]

/-- C2 (amended): from a fresh pool, every interleaving of 30,000 `Put`s of
buffers of length 100 and 15,000 `Put`s of buffers of length 4,000 runs to the
end without any calibration: the counters of the two buckets end at 30,000 and
15,000 (neither exceeds the threshold of 42,000, and they were never drained),
all other counters are 0, and `defaultSize` and `maxSize` are still 0. -/
theorem interleaved_puts_never_calibrate (S : SortImpl) (bs : List Buffer)
    (hlen : ∀ b ∈ bs, b.Len = 100 ∨ b.Len = 4000)
    (h100 : bs.countP (fun b => b.Len = 100) = 30000)
    (h4000 : bs.countP (fun b => b.Len = 4000) = 15000) :
    ∃ q, runPuts S BuffPool.empty bs = some q ∧ q.defaultSize = 0 ∧ q.maxSize = 0 ∧
      q.calls bucket100 = 30000 ∧ q.calls bucket4000 = 15000 ∧
      ∀ i, i ≠ bucket100 → i ≠ bucket4000 → q.calls i = 0 := by
  obtain ⟨q, hq, hd, hm, _, h1, h6, ho⟩ := runPuts_two_classes S bs BuffPool.empty hlen
    (by rw [h100]; decide) (by rw [h4000]; decide)
  refine ⟨q, hq, hd, hm, ?_, ?_, ho⟩
  · rw [h1, h100]; rfl
  · rw [h6, h4000]; rfl

theorem interleaved_puts_never_calibrate_witness :
    ((∀ b ∈ List.replicate 15000 (zeroBuffer 4000 4096) ++ List.replicate 30000 (zeroBuffer 100 128),
        b.Len = 100 ∨ b.Len = 4000) ∧
      (List.replicate 15000 (zeroBuffer 4000 4096) ++ List.replicate 30000 (zeroBuffer 100 128)).countP
        (fun b => b.Len = 100) = 30000 ∧
      (List.replicate 15000 (zeroBuffer 4000 4096) ++ List.replicate 30000 (zeroBuffer 100 128)).countP
        (fun b => b.Len = 4000) = 15000) ∧
    ∃ q, runPuts insertionSortImpl BuffPool.empty
        (List.replicate 15000 (zeroBuffer 4000 4096) ++ List.replicate 30000 (zeroBuffer 100 128))
        = some q ∧ q.defaultSize = 0 ∧ q.maxSize = 0 ∧
      q.calls bucket100 = 30000 ∧ q.calls bucket4000 = 15000 ∧
      ∀ i, i ≠ bucket100 → i ≠ bucket4000 → q.calls i = 0 := by
  have hlen : ∀ b ∈ List.replicate 15000 (zeroBuffer 4000 4096)
      ++ List.replicate 30000 (zeroBuffer 100 128), b.Len = 100 ∨ b.Len = 4000 := by
    intro b hb
    rcases List.mem_append.mp hb with h | h
    · right; rw [List.eq_of_mem_replicate h]; simp
    · left; rw [List.eq_of_mem_replicate h]; simp
  have h100 : (List.replicate 15000 (zeroBuffer 4000 4096)
      ++ List.replicate 30000 (zeroBuffer 100 128)).countP (fun b => b.Len = 100) = 30000 := by
    rw [countP_two_blocks]; simp
  have h4000 : (List.replicate 15000 (zeroBuffer 4000 4096)
      ++ List.replicate 30000 (zeroBuffer 100 128)).countP (fun b => b.Len = 4000) = 15000 := by
    rw [countP_two_blocks]; simp
  exact ⟨⟨hlen, h100, h4000⟩, interleaved_puts_never_calibrate insertionSortImpl _ hlen h100 h4000⟩

/-- C2 as stated fails: after 30,000 `Put`s of length 100 followed by 15,000
`Put`s of length 4,000 into a fresh pool, the pool does not have
`defaultSize == 128` and `maxSize == 4096`; both are still 0. -/
theorem scenario_sizes_not_calibrated :
    ∃ q, runPuts insertionSortImpl BuffPool.empty
        (List.replicate 30000 (zeroBuffer 100 100) ++ List.replicate 15000 (zeroBuffer 4000 4000))
        = some q ∧ q.defaultSize = 0 ∧ q.maxSize = 0 ∧
      ¬ (q.defaultSize = 128 ∧ q.maxSize = 4096) := by
  obtain ⟨q, hq, hd, hm, _⟩ := runPuts_two_classes insertionSortImpl
    (List.replicate 30000 (zeroBuffer 100 100) ++ List.replicate 15000 (zeroBuffer 4000 4000))
    BuffPool.empty
    (by
      intro b hb
      rcases List.mem_append.mp hb with h | h
      · left; rw [List.eq_of_mem_replicate h]; simp
      · right; rw [List.eq_of_mem_replicate h]; simp)
    (by rw [countP_two_blocks]; simp [BuffPool.empty, calibrateCallsThreshold])
    (by rw [countP_two_blocks]; simp [BuffPool.empty, calibrateCallsThreshold])
  refine ⟨q, hq, hd, hm, ?_⟩
  rw [hd]
  rintro ⟨h, _⟩
  exact absurd h (by decide)

/-! ## The recycling cache holds empty buffers -/

theorem calibrate_pool (S : SortImpl) (p : BuffPool) : (p.calibrate S).pool = p.pool := by
  unfold BuffPool.calibrate
  split <;> rfl

theorem bump_pool (S : SortImpl) (p : BuffPool) (i : Fin steps) :
    (p.bump S i).pool = p.pool := by
  simp only [BuffPool.bump]
  split
  · rw [calibrate_pool]
  · rfl

theorem mem_retain_pool (p : BuffPool) (bf b : Buffer) (h : b ∈ (p.retain bf).pool) :
    b = bf.Reset ∨ b ∈ p.pool := by
  simp only [BuffPool.retain] at h
  split at h
  · exact List.mem_cons.mp h
  · exact Or.inr h

theorem Put_eq_some (S : SortImpl) (p q : BuffPool) (bf : Buffer) (h : p.Put S bf = some q) :
    ∃ i : Fin steps, findIndex (bf.Len : Int) = i.val ∧ q = (p.bump S i).retain bf := by
  unfold BuffPool.Put at h
  by_cases hi : findIndex (bf.Len : Int) < steps
  · simp only [dif_pos hi, Option.some.injEq] at h
    exact ⟨⟨_, hi⟩, rfl, h.symm⟩
  · simp only [dif_neg hi] at h
    exact absurd h (by simp)

theorem poolGet_subset (cache : List Buffer) (choice : Option Nat) :
    (∀ b ∈ (BuffPool.poolGet cache choice).2, b ∈ cache) ∧
      ∀ v, (BuffPool.poolGet cache choice).1 = some v → v ∈ cache := by
  cases choice with
  | none => exact ⟨fun b hb => hb, fun v hv => by simp [BuffPool.poolGet] at hv⟩
  | some i =>
    simp only [BuffPool.poolGet]
    cases hget : cache.get? i with
    | none => exact ⟨fun b hb => hb, fun v hv => by simp at hv⟩
    | some w =>
      refine ⟨fun b hb => List.mem_of_mem_eraseIdx hb, fun v hv => ?_⟩
      simp only [Option.some.injEq] at hv
      rw [← hv]
      exact List.get?_mem hget

theorem Get_pool_subset (p : BuffPool) (choice : Option Nat) :
    ∀ b ∈ (p.Get choice).2.pool, b ∈ p.pool := by
  have h := (poolGet_subset p.pool choice).1
  unfold BuffPool.Get
  rcases hg : BuffPool.poolGet p.pool choice with ⟨_ | v, rest⟩
  · rw [hg] at h; exact h
  · rw [hg] at h; exact h

theorem Get_result (p : BuffPool) (choice : Option Nat) :
    (p.Get choice).1 ∈ p.pool ∨ (p.Get choice).1 = { buff := ByteSlice.make p.defaultSize } := by
  have h := (poolGet_subset p.pool choice).2
  unfold BuffPool.Get
  rcases hg : BuffPool.poolGet p.pool choice with ⟨_ | v, rest⟩
  · exact Or.inr rfl
  · rw [hg] at h; exact Or.inl (h v rfl)

/-- Every reachable pool keeps only buffers of length 0 in its cache. -/
theorem reachable_cache_clean (S : SortImpl) (p : BuffPool) (h : Reachable S p) :
    ∀ b ∈ p.pool, b.Len = 0 := by
  induction h with
  | init => intro b hb; simp [BuffPool.empty] at hb
  | get choice _ ih => exact fun b hb => ih b (Get_pool_subset _ choice b hb)
  | put bf _ hput ih =>
    obtain ⟨i, _, hq⟩ := Put_eq_some S _ _ bf hput
    intro b hb
    rw [hq] at hb
    rcases mem_retain_pool _ bf b hb with h | h
    · rw [h]; rfl
    · rw [bump_pool] at h; exact ih b h
  | calibrate _ ih => intro b hb; rw [calibrate_pool] at hb; exact ih b hb
  | drop i _ ih => exact fun b hb => ih b (List.mem_of_mem_eraseIdx hb)

/-- C3: in every pool state reachable from the empty pool by `Get` and `Put`
calls (and also by calibration passes and by the cache dropping buffers), every
buffer held in the cache has length 0, and whatever `Get` returns, recycled or
freshly allocated, has `Len() == 0`. -/
theorem reachable_Get_returns_empty_buffer (S : SortImpl) (p : BuffPool)
    (h : Reachable S p) :
    (∀ b ∈ p.pool, b.Len = 0) ∧ ∀ choice, (p.Get choice).1.Len = 0 := by
  have hc := reachable_cache_clean S p h
  refine ⟨hc, fun choice => ?_⟩
  rcases Get_result p choice with hg | hg
  · exact hc _ hg
  · rw [hg]; rfl

theorem reachable_Get_returns_empty_buffer_witness :
    Reachable insertionSortImpl
        ((BuffPool.empty.bump insertionSortImpl ⟨0, by decide⟩).retain (zeroBuffer 3 8)) ∧
      (∀ b ∈ ((BuffPool.empty.bump insertionSortImpl ⟨0, by decide⟩).retain
          (zeroBuffer 3 8)).pool, b.Len = 0) ∧
      ∀ choice, (((BuffPool.empty.bump insertionSortImpl ⟨0, by decide⟩).retain
          (zeroBuffer 3 8)).Get choice).1.Len = 0 :=
  have hr : Reachable insertionSortImpl
      ((BuffPool.empty.bump insertionSortImpl ⟨0, by decide⟩).retain (zeroBuffer 3 8)) :=
    Reachable.put (zeroBuffer 3 8) Reachable.init
      (Put_of_index insertionSortImpl BuffPool.empty (zeroBuffer 3 8) ⟨0, by decide⟩ (by decide))
  ⟨hr, reachable_Get_returns_empty_buffer insertionSortImpl _ hr⟩

/-! ## Calibration stores size-class boundaries -/

theorem snapshot_length (calls : Fin steps → Nat) : (snapshot calls).length = steps := by
  simp [snapshot]

theorem sorted_snapshot_length (S : SortImpl) (calls : Fin steps → Nat) :
    (S.sort (snapshot calls)).length = steps := by
  rw [(S.perm (snapshot calls)).length_eq, snapshot_length]

theorem snapshot_size (calls : Fin steps → Nat) (c : callSize) (h : c ∈ snapshot calls) :
    IsClassSize c.size := by
  simp only [snapshot, List.mem_map] at h
  obtain ⟨i, _, hc⟩ := h
  refine ⟨i.val, ?_, ?_⟩
  · have := i.isLt
    simp only [steps] at this
    omega
  · rw [← hc]
    show minimumSize <<< i.val = 64 * 2 ^ i.val
    rw [Nat.shiftLeft_eq]
    rfl

theorem sorted_snapshot_size (S : SortImpl) (calls : Fin steps → Nat) (c : callSize)
    (h : c ∈ S.sort (snapshot calls)) : IsClassSize c.size :=
  snapshot_size calls c ((S.perm (snapshot calls)).mem_iff.mp h)

/-- The second loop of `calibrate` returns the `maximumSize` it started from
or the size of one of the elements it went through. -/
theorem accumulate_cases (maxSum : Nat) :
    ∀ (a : callSizes) (callSum maximumSize : Nat),
      accumulate maxSum a callSum maximumSize = maximumSize ∨
        ∃ c ∈ a, accumulate maxSum a callSum maximumSize = c.size := by
  intro a
  induction a with
  | nil => intro _ _; exact Or.inl rfl
  | cons c rest ih =>
    intro callSum maximumSize
    simp only [accumulate]
    split
    · exact Or.inl rfl
    · rcases ih ((callSum + c.calls) % u64)
          (if c.size > maximumSize then c.size else maximumSize) with h | ⟨d, hd, h⟩
      · rw [h]
        split
        · exact Or.inr ⟨c, List.mem_cons_self _ _, rfl⟩
        · exact Or.inl rfl
      · exact Or.inr ⟨d, List.mem_cons_of_mem _ hd, h⟩

theorem sorted_snapshot_head (S : SortImpl) (calls : Fin steps → Nat) :
    (S.sort (snapshot calls)).headD { calls := 0, size := 0 } ∈ S.sort (snapshot calls) := by
  have hlen := sorted_snapshot_length S calls
  cases hs : S.sort (snapshot calls) with
  | nil => rw [hs] at hlen; exact absurd hlen (by decide)
  | cons c rest => exact List.mem_cons_self _ _

/-- A calibration pass that is not gated out stores two size-class
boundaries. -/
theorem calibrate_stores_class_sizes (S : SortImpl) (p : BuffPool) (h : p.calibrating = 0) :
    IsClassSize (p.calibrate S).defaultSize ∧ IsClassSize (p.calibrate S).maxSize := by
  have hd : IsClassSize ((S.sort (snapshot p.calls)).headD { calls := 0, size := 0 }).size :=
    sorted_snapshot_size S p.calls _ (sorted_snapshot_head S p.calls)
  unfold BuffPool.calibrate
  rw [if_neg (by simpa using h)]
  refine ⟨hd, ?_⟩
  show IsClassSize (accumulate _ _ _ _)
  rcases accumulate_cases (percentileOf (sumCalls (snapshot p.calls)))
      (S.sort (snapshot p.calls)) 0
      ((S.sort (snapshot p.calls)).headD { calls := 0, size := 0 }).size with h | ⟨c, hc, h⟩
  · rw [h]; exact hd
  · rw [h]; exact sorted_snapshot_size S p.calls c hc

theorem calibrate_SizesOK (S : SortImpl) (p : BuffPool) (h : SizesOK p) :
    SizesOK (p.calibrate S) := by
  by_cases hc : p.calibrating = 0
  · have := calibrate_stores_class_sizes S p hc
    exact ⟨Or.inr this.1, Or.inr this.2⟩
  · have : p.calibrate S = p := by
      unfold BuffPool.calibrate
      rw [if_pos hc]
    rw [this]; exact h

theorem bump_SizesOK (S : SortImpl) (p : BuffPool) (i : Fin steps) (h : SizesOK p) :
    SizesOK (p.bump S i) := by
  simp only [BuffPool.bump]
  split
  · exact calibrate_SizesOK S _ h
  · exact h

theorem retain_SizesOK (p : BuffPool) (bf : Buffer) (h : SizesOK p) : SizesOK (p.retain bf) := by
  unfold SizesOK
  rw [retain_defaultSize, retain_maxSize]
  exact h

theorem Get_sizes (p : BuffPool) (choice : Option Nat) :
    (p.Get choice).2.defaultSize = p.defaultSize ∧ (p.Get choice).2.maxSize = p.maxSize := by
  unfold BuffPool.Get
  rcases BuffPool.poolGet p.pool choice with ⟨_ | v, rest⟩ <;> exact ⟨rfl, rfl⟩

theorem reachable_SizesOK (S : SortImpl) (p : BuffPool) (h : Reachable S p) : SizesOK p := by
  induction h with
  | init => exact ⟨Or.inl rfl, Or.inl rfl⟩
  | get choice _ ih =>
    unfold SizesOK
    rw [(Get_sizes _ choice).1, (Get_sizes _ choice).2]
    exact ih
  | put bf _ hput ih =>
    obtain ⟨i, _, hq⟩ := Put_eq_some S _ _ bf hput
    rw [hq]
    exact retain_SizesOK _ bf (bump_SizesOK S _ i ih)
  | calibrate _ ih => exact calibrate_SizesOK S _ ih
  | drop i _ ih => exact ih

/-- C7: in every pool state reachable by any sequence of `Get`, `Put` and
`calibrate` calls, `defaultSize` is 0 or `64 * 2^i` for some `0 <= i <= 19`,
and so is `maxSize`. -/
theorem reachable_sizes_are_class_boundaries (S : SortImpl) (p : BuffPool)
    (h : Reachable S p) :
    (p.defaultSize = 0 ∨ ∃ i : Nat, i ≤ 19 ∧ p.defaultSize = 64 * 2 ^ i) ∧
      (p.maxSize = 0 ∨ ∃ i : Nat, i ≤ 19 ∧ p.maxSize = 64 * 2 ^ i) :=
  reachable_SizesOK S p h

theorem reachable_sizes_are_class_boundaries_witness :
    Reachable insertionSortImpl (BuffPool.empty.calibrate insertionSortImpl) ∧
      ((BuffPool.empty.calibrate insertionSortImpl).defaultSize = 0 ∨
        ∃ i : Nat, i ≤ 19 ∧ (BuffPool.empty.calibrate insertionSortImpl).defaultSize = 64 * 2 ^ i) ∧
      ((BuffPool.empty.calibrate insertionSortImpl).maxSize = 0 ∨
        ∃ i : Nat, i ≤ 19 ∧ (BuffPool.empty.calibrate insertionSortImpl).maxSize = 64 * 2 ^ i) :=
  ⟨Reachable.calibrate Reachable.init,
    reachable_sizes_are_class_boundaries insertionSortImpl _ (Reachable.calibrate Reachable.init)⟩

/-! ## The retention decision of `Put` -/

theorem toInt_of_lt (u : Nat) (h : u < 2 ^ 63) : toInt u = (u : Int) := by
  have h2 : u % u64 = u := Nat.mod_eq_of_lt (by unfold u64; omega)
  unfold toInt
  rw [h2, if_pos h]

/-- C5: with `m` the value that `Put` reads into `maxSize` after the counter
increment and any calibration of this `Put`, the buffer is reset (length 0)
and inserted into the cache when `m == 0` or `cap(buffer) < m`, and otherwise
the cache is left as it was; `m` is the stored `maxSize` whenever that is
below `2^63`. In particular a stored `maxSize` of 0 retains every buffer. -/
theorem Put_retention_rule (S : SortImpl) (p : BuffPool) (bf : Buffer)
    (h : findIndex (bf.Len : Int) < steps) :
    ((toInt (p.bump S ⟨findIndex (bf.Len : Int), h⟩).maxSize = 0 ∨
        (bf.Cap : Int) < toInt (p.bump S ⟨findIndex (bf.Len : Int), h⟩).maxSize) →
      p.Put S bf = some { p.bump S ⟨findIndex (bf.Len : Int), h⟩ with
        pool := bf.Reset :: (p.bump S ⟨findIndex (bf.Len : Int), h⟩).pool }) ∧
    (¬ (toInt (p.bump S ⟨findIndex (bf.Len : Int), h⟩).maxSize = 0 ∨
        (bf.Cap : Int) < toInt (p.bump S ⟨findIndex (bf.Len : Int), h⟩).maxSize) →
      p.Put S bf = some (p.bump S ⟨findIndex (bf.Len : Int), h⟩)) ∧
    bf.Reset.Len = 0 ∧
    ((p.bump S ⟨findIndex (bf.Len : Int), h⟩).maxSize < 2 ^ 63 →
      toInt (p.bump S ⟨findIndex (bf.Len : Int), h⟩).maxSize
        = ((p.bump S ⟨findIndex (bf.Len : Int), h⟩).maxSize : Int)) ∧
    ((p.bump S ⟨findIndex (bf.Len : Int), h⟩).maxSize = 0 →
      p.Put S bf = some { p.bump S ⟨findIndex (bf.Len : Int), h⟩ with
        pool := bf.Reset :: (p.bump S ⟨findIndex (bf.Len : Int), h⟩).pool }) := by
  have hput : p.Put S bf = some ((p.bump S ⟨findIndex (bf.Len : Int), h⟩).retain bf) :=
    Put_of_index S p bf ⟨findIndex (bf.Len : Int), h⟩ rfl
  refine ⟨fun hc => ?_, fun hc => ?_, rfl, fun hlt => toInt_of_lt _ hlt, fun h0 => ?_⟩
  · rw [hput]; simp only [BuffPool.retain]; rw [if_pos hc]
  · rw [hput]; simp only [BuffPool.retain]; rw [if_neg hc]
  · rw [hput]; simp only [BuffPool.retain]
    rw [if_pos (Or.inl (by rw [h0]; rfl))]

theorem Put_retention_rule_witness :
    findIndex ((zeroBuffer 3 8).Len : Int) < steps ∧
      BuffPool.Put insertionSortImpl BuffPool.empty (zeroBuffer 3 8)
        = some { BuffPool.empty.bump insertionSortImpl
            ⟨findIndex ((zeroBuffer 3 8).Len : Int), by decide⟩ with
          pool := (zeroBuffer 3 8).Reset :: (BuffPool.empty.bump insertionSortImpl
            ⟨findIndex ((zeroBuffer 3 8).Len : Int), by decide⟩).pool } :=
  ⟨by decide,
    (Put_retention_rule insertionSortImpl BuffPool.empty (zeroBuffer 3 8) (by decide)).1
      (Or.inl (by decide))⟩

/-! ## A buffer whose capacity equals `maxSize` -/

theorem sorted_head_calls_ge (S : SortImpl) (a : callSizes) (c : callSize)
    (h : c ∈ S.sort a) : c.calls ≤ ((S.sort a).headD { calls := 0, size := 0 }).calls := by
  have hs := S.sorted a
  cases hl : S.sort a with
  | nil => rw [hl] at h; exact absurd h (List.not_mem_nil _)
  | cons x rest =>
    rw [hl] at h hs
    simp only [List.headD_cons]
    rcases List.mem_cons.mp h with h | h
    · rw [h]
    · have := (List.pairwise_cons.mp hs).1 c h
      simp only [callSize.Less, gt_iff_lt, not_lt] at this
      exact this

theorem runPuts_append (S : SortImpl) :
    ∀ (l1 l2 : List Buffer) (p : BuffPool),
      runPuts S p (l1 ++ l2) = (runPuts S p l1).bind (fun q => runPuts S q l2) := by
  intro l1
  induction l1 with
  | nil => intro l2 p; rfl
  | cons b rest ih =>
    intro l2 p
    simp only [List.cons_append, runPuts]
    cases p.Put S b with
    | none => rfl
    | some q => exact ih l2 q

theorem sorted_full100 (S : SortImpl) :
    ∃ rest, S.sort (snapshot full100) = { calls := 42001, size := 128 } :: rest := by
  have hmem : ({ calls := 42001, size := 128 } : callSize) ∈ S.sort (snapshot full100) :=
    (S.perm _).mem_iff.mpr (by decide)
  have hge := sorted_head_calls_ge S _ _ hmem
  have hhead := sorted_snapshot_head S full100
  have hin := (S.perm _).mem_iff.mp hhead
  cases hl : S.sort (snapshot full100) with
  | nil => rw [hl] at hmem; exact absurd hmem (List.not_mem_nil _)
  | cons x rest =>
    rw [hl] at hge hin
    simp only [List.headD_cons] at hge hin
    refine ⟨rest, ?_⟩
    have hx : ∀ y ∈ snapshot full100, 42001 ≤ y.calls → y = (⟨42001, 128⟩ : callSize) := by
      decide
    rw [hx x hin hge]

theorem calibrate_full100 (S : SortImpl) (p : BuffPool) (hc : p.calls = full100)
    (h0 : p.calibrating = 0) :
    p.calibrate S =
      { calls := fun _ => 0, calibrating := 0, defaultSize := 128, maxSize := 128,
        pool := p.pool } := by
  obtain ⟨rest, hs⟩ := sorted_full100 S
  have hne : ¬ p.calibrating ≠ 0 := by simpa using h0
  have hsum : percentileOf (sumCalls (snapshot full100)) = 39900 := by decide
  have hacc : accumulate 39900 ({ calls := 42001, size := 128 } :: rest) 0 128 = 128 := by
    cases rest with
    | nil => simp [accumulate]
    | cons y ys => simp [accumulate, u64]
  simp only [BuffPool.calibrate, if_neg hne, hc, hs, List.headD_cons, hsum, hacc]

theorem Get_none (p : BuffPool) :
    p.Get none = ({ buff := ByteSlice.make p.defaultSize }, p) := rfl

/-- The buffer that `Get` allocates when `defaultSize` is 128, after 100 bytes
have been written to it: length 100, capacity still 128. -/
theorem fresh_buffer_filled (p : BuffPool) (h : p.defaultSize = 128) :
    ((p.Get none).1.Write exactGrow (List.replicate 100 0)).1 = zeroBuffer 100 128 := by
  rw [Get_none, h]
  rfl

/-- The retention decision discards a buffer whose capacity is `maxSize`. -/
theorem retain_capacity_equal_maxSize (p : BuffPool) (bf : Buffer) (h0 : 0 < p.maxSize)
    (hlt : p.maxSize < 2 ^ 63) (hcap : bf.Cap = p.maxSize) : p.retain bf = p := by
  simp only [BuffPool.retain, toInt_of_lt p.maxSize hlt, hcap]
  rw [if_neg]
  omega

/-- After 42,001 `Put`s of buffers of length 100 into a fresh pool the last
`Put` has calibrated: the counters are drained and both sizes are 128. -/
theorem puts_until_calibration (S : SortImpl) :
    ∃ r, runPuts S BuffPool.empty (List.replicate 42001 (zeroBuffer 100 128)) = some r ∧
      r.calls = (fun _ => 0) ∧ r.calibrating = 0 ∧ r.defaultSize = 128 ∧ r.maxSize = 128 := by
  obtain ⟨q, hq, _, _, hcal, h1, h6, ho⟩ := runPuts_two_classes S
    (List.replicate 42000 (zeroBuffer 100 128)) BuffPool.empty
    (fun b hb => Or.inl (by rw [List.eq_of_mem_replicate hb]; simp))
    (by rw [List.countP_replicate]; simp [BuffPool.empty, calibrateCallsThreshold])
    (by rw [List.countP_replicate]; simp [BuffPool.empty, calibrateCallsThreshold])
  rw [List.countP_replicate] at h1 h6
  simp only [zeroBuffer_Len, decide_True, if_true, BuffPool.empty, zero_add] at h1
  have h6 : q.calls bucket4000 = 0 := by
    rw [h6]; simp [BuffPool.empty]
  have hcal : q.calibrating = 0 := hcal
  have hfull : Function.update q.calls bucket100 42001 = full100 := by
    funext i
    by_cases hi : i = bucket100
    · rw [hi, Function.update_same]; rfl
    · rw [Function.update_noteq hi]
      by_cases hj : i = bucket4000
      · rw [hj, h6]; rfl
      · rw [ho i hi hj]; simp [full100, hi, BuffPool.empty]
  have hput : q.Put S (zeroBuffer 100 128)
      = some { calls := fun _ => 0, calibrating := 0, defaultSize := 128, maxSize := 128,
               pool := q.pool } := by
    rw [Put_of_index S q (zeroBuffer 100 128) bucket100 (by decide)]
    have hb : q.bump S bucket100
        = { calls := fun _ => 0, calibrating := 0, defaultSize := 128, maxSize := 128,
            pool := q.pool } := by
      simp only [BuffPool.bump, h1]
      rw [if_pos (by decide)]
      have hv : (42000 + 1) % u64 = 42001 := by decide
      rw [hv]
      exact calibrate_full100 S _ hfull hcal
    rw [hb]
    exact congrArg some (retain_capacity_equal_maxSize _ (zeroBuffer 100 128)
      (show (0 : Nat) < 128 by decide) (show (128 : Nat) < 2 ^ 63 by decide) rfl)
  refine ⟨{ calls := fun _ => 0, calibrating := 0, defaultSize := 128, maxSize := 128,
            pool := q.pool }, ?_, rfl, rfl, rfl, rfl⟩
  have hsplit : List.replicate 42001 (zeroBuffer 100 128)
      = List.replicate 42000 (zeroBuffer 100 128) ++ [zeroBuffer 100 128] :=
    List.replicate_succ' 42000 _
  rw [hsplit, runPuts_append, hq]
  simp only [Option.some_bind, runPuts, hput]

/-- C4 (the code departs from it): a buffer whose capacity equals `maxSize` is
discarded. After 42,001 `Put`s of buffers of length 100 the pool has
`defaultSize = maxSize = 128`; the buffer that `Get` then allocates, with 100
bytes written, has capacity 128, which does not exceed `maxSize`; `Put` of it
returns and leaves the cache as it was. -/
theorem Put_discards_capacity_equal_maxSize (S : SortImpl) :
    ∃ r, runPuts S BuffPool.empty (List.replicate 42001 (zeroBuffer 100 128)) = some r ∧
      r.defaultSize = 128 ∧ r.maxSize = 128 ∧
      ((r.Get none).1.Write exactGrow (List.replicate 100 0)).1.Len = 100 ∧
      ((r.Get none).1.Write exactGrow (List.replicate 100 0)).1.Cap = 128 ∧
      ((r.Get none).1.Write exactGrow (List.replicate 100 0)).1.Cap ≤ r.maxSize ∧
      ∃ q, r.Put S ((r.Get none).1.Write exactGrow (List.replicate 100 0)).1 = some q ∧
        q.pool = r.pool := by
  obtain ⟨r, hr, hcalls, _, hd, hm⟩ := puts_until_calibration S
  refine ⟨r, hr, hd, hm, ?_⟩
  rw [fresh_buffer_filled r hd]
  refine ⟨zeroBuffer_Len _ _, rfl, by rw [hm]; exact le_refl _, ?_⟩
  have hput := Put_of_index S r (zeroBuffer 100 128) bucket100 (by decide)
  rw [bump_below_threshold S r bucket100 (by rw [hcalls]; decide)] at hput
  refine ⟨_, hput, ?_⟩
  rw [retain_capacity_equal_maxSize _ _ (by simp only [hm]; decide) (by simp only [hm]; decide)
    (by simp only [hm]; rfl)]

/-! ## `maxSize` at the call and at the decision -/

/-- C6 as stated fails: the pool has `maxSize = 64` when `Put` is called, the
buffer has capacity 120, yet this `Put` (whose increment takes the counter of
bucket 1 to 42,001 and calibrates, storing `maxSize = 128`) inserts it. -/
theorem Put_inserts_above_entry_maxSize :
    atThreshold64.maxSize = 64 ∧ atThreshold64.maxSize < (zeroBuffer 100 120).Cap ∧
      atThreshold64.pool = [] ∧
      Option.map BuffPool.pool (atThreshold64.Put insertionSortImpl (zeroBuffer 100 120))
        = some [zeroBuffer 0 120] ∧
      Option.map BuffPool.maxSize (atThreshold64.Put insertionSortImpl (zeroBuffer 100 120))
        = some 128 := by
  decide

/-- C6 (amended): if the `maxSize` that `Put` reads for its retention decision,
after the counter increment and any calibration of this `Put`, is `m > 0` and
the capacity of the buffer is greater than `m`, then `Put` returns and the
cache is what it was before, so no later `Get` finds the buffer there. That
`m` is the `maxSize` at the moment `Put` is called whenever the incremented
counter does not exceed the threshold. -/
theorem Put_discards_above_decision_maxSize (S : SortImpl) (p : BuffPool) (bf : Buffer)
    (h : findIndex (bf.Len : Int) < steps) (hcap : bf.Cap < 2 ^ 63)
    (hm : 0 < (p.bump S ⟨findIndex (bf.Len : Int), h⟩).maxSize)
    (hgt : (p.bump S ⟨findIndex (bf.Len : Int), h⟩).maxSize < bf.Cap) :
    (∃ q, p.Put S bf = some q ∧ q.pool = p.pool) ∧
      (p.calls ⟨findIndex (bf.Len : Int), h⟩ + 1 ≤ calibrateCallsThreshold →
        (p.bump S ⟨findIndex (bf.Len : Int), h⟩).maxSize = p.maxSize) := by
  have hput : p.Put S bf = some ((p.bump S ⟨findIndex (bf.Len : Int), h⟩).retain bf) :=
    Put_of_index S p bf ⟨findIndex (bf.Len : Int), h⟩ rfl
  refine ⟨⟨_, hput, ?_⟩, fun hle => ?_⟩
  · have hti := toInt_of_lt (p.bump S ⟨findIndex (bf.Len : Int), h⟩).maxSize (by omega)
    simp only [BuffPool.retain]
    rw [if_neg]
    · exact bump_pool S p _
    · rw [hti]
      omega
  · rw [bump_below_threshold S p _ hle]

theorem Put_discards_above_decision_maxSize_witness :
    (findIndex ((zeroBuffer 100 120).Len : Int) < steps ∧ (zeroBuffer 100 120).Cap < 2 ^ 63 ∧
      0 < (quiet64.bump insertionSortImpl
        ⟨findIndex ((zeroBuffer 100 120).Len : Int), by decide⟩).maxSize ∧
      (quiet64.bump insertionSortImpl
        ⟨findIndex ((zeroBuffer 100 120).Len : Int), by decide⟩).maxSize
        < (zeroBuffer 100 120).Cap) ∧
    ∃ q, quiet64.Put insertionSortImpl (zeroBuffer 100 120) = some q ∧ q.pool = quiet64.pool :=
  ⟨⟨by decide, by decide, by decide, by decide⟩,
    (Put_discards_above_decision_maxSize insertionSortImpl quiet64 (zeroBuffer 100 120)
      (by decide) (by decide) (by decide) (by decide)).1⟩

/-! ## One calibration pass -/

theorem mem_snapshot (calls : Fin steps → Nat) (c : callSize) :
    c ∈ snapshot calls ↔ ∃ i : Fin steps, c = { calls := calls i, size := 64 * 2 ^ i.val } := by
  simp only [snapshot, List.mem_map, List.mem_finRange, true_and]
  constructor
  · rintro ⟨i, hi⟩
    refine ⟨i, ?_⟩
    rw [← hi, Nat.shiftLeft_eq]
    rfl
  · rintro ⟨i, hi⟩
    refine ⟨i, ?_⟩
    rw [hi, Nat.shiftLeft_eq]
    rfl

theorem calibrate_of_clear (S : SortImpl) (p : BuffPool) (h : p.calibrating = 0) :
    p.calibrate S =
      { calls := fun _ => 0, calibrating := 0,
        defaultSize := ((S.sort (snapshot p.calls)).headD { calls := 0, size := 0 }).size,
        maxSize := accumulate (percentileOf (sumCalls (snapshot p.calls)))
          (S.sort (snapshot p.calls)) 0
          ((S.sort (snapshot p.calls)).headD { calls := 0, size := 0 }).size,
        pool := p.pool } := by
  have hne : ¬ p.calibrating ≠ 0 := by simpa using h
  simp only [BuffPool.calibrate, if_neg hne]

theorem calibrate_of_set (S : SortImpl) (p : BuffPool) (h : p.calibrating ≠ 0) :
    p.calibrate S = p := by
  simp only [BuffPool.calibrate, if_pos h]

/-- The second loop of `calibrate` never lowers `maximumSize`. -/
theorem le_accumulate (maxSum : Nat) :
    ∀ (a : callSizes) (callSum maximumSize : Nat),
      maximumSize ≤ accumulate maxSum a callSum maximumSize := by
  intro a
  induction a with
  | nil => intro _ _; exact le_refl _
  | cons c rest ih =>
    intro callSum maximumSize
    simp only [accumulate]
    split
    · exact le_refl _
    · refine le_trans ?_ (ih _ _)
      split
      · omega
      · exact le_refl _

/-- C17: when the `calibrating` flag is already 1, `calibrate` changes nothing:
the counters, `defaultSize`, `maxSize`, the flag and the cache are as before. -/
theorem calibrate_gated_is_noop (S : SortImpl) (p : BuffPool) (h : p.calibrating = 1) :
    (p.calibrate S).calls = p.calls ∧ (p.calibrate S).defaultSize = p.defaultSize ∧
      (p.calibrate S).maxSize = p.maxSize ∧ (p.calibrate S).calibrating = 1 ∧
      p.calibrate S = p := by
  have hp : p.calibrate S = p := calibrate_of_set S p (by rw [h]; decide)
  rw [hp]
  exact ⟨rfl, rfl, rfl, h, rfl⟩

theorem calibrate_gated_is_noop_witness :
    ({ atThreshold64 with calibrating := 1 } : BuffPool).calibrating = 1 ∧
      (({ atThreshold64 with calibrating := 1 } : BuffPool).calibrate insertionSortImpl).maxSize
        = 64 :=
  ⟨rfl, (calibrate_gated_is_noop insertionSortImpl { atThreshold64 with calibrating := 1 } rfl).2.2.1⟩

/-- C18: with the `calibrating` flag clear, a `calibrate` pass leaves every one
of the 20 counters at 0, the flag at 0 again, and the cache as it was. -/
theorem calibrate_drains_counters (S : SortImpl) (p : BuffPool) (h : p.calibrating = 0) :
    (∀ i : Fin steps, (p.calibrate S).calls i = 0) ∧ (p.calibrate S).calibrating = 0 ∧
      (p.calibrate S).pool = p.pool := by
  rw [calibrate_of_clear S p h]
  exact ⟨fun _ => rfl, rfl, rfl⟩

theorem calibrate_drains_counters_witness :
    atThreshold64.calibrating = 0 ∧
      (∀ i : Fin steps, (atThreshold64.calibrate insertionSortImpl).calls i = 0) ∧
      (atThreshold64.calibrate insertionSortImpl).calibrating = 0 ∧
      (atThreshold64.calibrate insertionSortImpl).pool = atThreshold64.pool :=
  ⟨rfl, calibrate_drains_counters insertionSortImpl atThreshold64 rfl⟩

/-- C13: after a `calibrate` pass (flag clear) the stored `defaultSize` is the
size `64 * 2^i` of a class `i` whose drained count is the largest of the 20
counts. -/
theorem calibrate_defaultSize_is_modal (S : SortImpl) (p : BuffPool) (h : p.calibrating = 0) :
    ∃ i : Fin steps, (p.calibrate S).defaultSize = 64 * 2 ^ i.val ∧
      ∀ j : Fin steps, p.calls j ≤ p.calls i := by
  obtain ⟨i, hi⟩ := (mem_snapshot p.calls _).mp
    ((S.perm _).mem_iff.mp (sorted_snapshot_head S p.calls))
  refine ⟨i, ?_, fun j => ?_⟩
  · rw [calibrate_of_clear S p h]
    show ((S.sort (snapshot p.calls)).headD { calls := 0, size := 0 }).size = _
    rw [hi]
  · have hj : ({ calls := p.calls j, size := 64 * 2 ^ j.val } : callSize)
        ∈ S.sort (snapshot p.calls) :=
      (S.perm _).mem_iff.mpr ((mem_snapshot p.calls _).mpr ⟨j, rfl⟩)
    have := sorted_head_calls_ge S _ _ hj
    rw [hi] at this
    exact this

theorem calibrate_defaultSize_is_modal_witness :
    atThreshold64.calibrating = 0 ∧
      ∃ i : Fin steps, (atThreshold64.calibrate insertionSortImpl).defaultSize = 64 * 2 ^ i.val ∧
        ∀ j : Fin steps, atThreshold64.calls j ≤ atThreshold64.calls i :=
  ⟨rfl, calibrate_defaultSize_is_modal insertionSortImpl atThreshold64 rfl⟩

/-- C20: the two sizes stored by a `calibrate` pass (flag clear) satisfy
`defaultSize <= maxSize`, and both are at least 64. -/
theorem calibrate_defaultSize_le_maxSize (S : SortImpl) (p : BuffPool)
    (h : p.calibrating = 0) :
    (p.calibrate S).defaultSize ≤ (p.calibrate S).maxSize ∧
      64 ≤ (p.calibrate S).defaultSize ∧ 64 ≤ (p.calibrate S).maxSize := by
  obtain ⟨⟨i, _, hi⟩, _⟩ := calibrate_stores_class_sizes S p h
  have h64 : 64 ≤ (p.calibrate S).defaultSize := by
    rw [hi]
    exact Nat.le_mul_of_pos_right 64 (Nat.pos_pow_of_pos i (by decide))
  have hle : (p.calibrate S).defaultSize ≤ (p.calibrate S).maxSize := by
    rw [calibrate_of_clear S p h]
    exact le_accumulate _ _ _ _
  exact ⟨hle, h64, le_trans h64 hle⟩

theorem calibrate_defaultSize_le_maxSize_witness :
    atThreshold64.calibrating = 0 ∧
      (atThreshold64.calibrate insertionSortImpl).defaultSize
        ≤ (atThreshold64.calibrate insertionSortImpl).maxSize ∧
      64 ≤ (atThreshold64.calibrate insertionSortImpl).defaultSize ∧
      64 ≤ (atThreshold64.calibrate insertionSortImpl).maxSize :=
  ⟨rfl, calibrate_defaultSize_le_maxSize insertionSortImpl atThreshold64 rfl⟩

/-! ## The counters stay within the threshold -/

theorem Get_calls (p : BuffPool) (choice : Option Nat) :
    (p.Get choice).2.calls = p.calls ∧ (p.Get choice).2.calibrating = p.calibrating := by
  unfold BuffPool.Get
  rcases BuffPool.poolGet p.pool choice with ⟨_ | v, rest⟩ <;> exact ⟨rfl, rfl⟩

theorem calibrate_clear_fields (S : SortImpl) (p : BuffPool) (h : p.calibrating = 0) :
    (p.calibrate S).calibrating = 0 ∧ ∀ j, (p.calibrate S).calls j = 0 := by
  rw [calibrate_of_clear S p h]
  exact ⟨rfl, fun _ => rfl⟩

theorem bump_counters_bounded (S : SortImpl) (p : BuffPool) (i : Fin steps)
    (hflag : p.calibrating = 0) (hb : ∀ j, p.calls j ≤ calibrateCallsThreshold) :
    (p.bump S i).calibrating = 0 ∧ ∀ j, (p.bump S i).calls j ≤ calibrateCallsThreshold := by
  have hlt : p.calls i + 1 < u64 := by
    have h1 := hb i
    have h2 : calibrateCallsThreshold + 1 < u64 := by decide
    omega
  simp only [BuffPool.bump, Nat.mod_eq_of_lt hlt]
  split
  · have hc := calibrate_clear_fields S
      { p with calls := Function.update p.calls i (p.calls i + 1) } hflag
    exact ⟨hc.1, fun j => by rw [hc.2 j]; exact Nat.zero_le _⟩
  · rename_i hle
    refine ⟨hflag, fun j => ?_⟩
    show Function.update p.calls i (p.calls i + 1) j ≤ calibrateCallsThreshold
    by_cases hj : j = i
    · rw [hj, Function.update_same]; omega
    · rw [Function.update_noteq hj]; exact hb j

/-- In every reachable pool the flag is clear and no counter exceeds the
threshold. -/
theorem reachable_counters_bounded (S : SortImpl) (p : BuffPool) (h : Reachable S p) :
    p.calibrating = 0 ∧ ∀ j, p.calls j ≤ calibrateCallsThreshold := by
  induction h with
  | init => exact ⟨rfl, fun _ => Nat.zero_le _⟩
  | get choice _ ih =>
    rw [(Get_calls _ choice).1, (Get_calls _ choice).2]
    exact ih
  | put bf _ hput ih =>
    obtain ⟨i, _, hq⟩ := Put_eq_some S _ _ bf hput
    rw [hq, retain_calls, retain_calibrating]
    exact bump_counters_bounded S _ i ih.1 ih.2
  | calibrate _ ih =>
    rw [calibrate_of_clear S _ ih.1]
    exact ⟨rfl, fun _ => Nat.zero_le _⟩
  | drop i _ ih => exact ih

/-- C19: starting from a fresh pool, after any sequence of `Get` and `Put`
calls executed one at a time (every `Put` returning), every bucket counter is
at most 42,000; a `Put` that takes a counter to 42,001 calibrates and leaves
all counters at 0. -/
theorem reachable_counters_at_most_threshold (S : SortImpl) (p : BuffPool)
    (h : Reachable S p) :
    (∀ j : Fin steps, p.calls j ≤ 42000) ∧
      ∀ (bf : Buffer) (q : BuffPool), p.Put S bf = some q →
        (∀ i : Fin steps, findIndex (bf.Len : Int) = i.val → p.calls i = 42000 →
          ∀ j : Fin steps, q.calls j = 0) := by
  obtain ⟨hflag, hb⟩ := reachable_counters_bounded S p h
  refine ⟨hb, fun bf q hput i hi hfull j => ?_⟩
  rw [Put_of_index S p bf i hi] at hput
  simp only [Option.some.injEq] at hput
  rw [← hput, retain_calls]
  simp only [BuffPool.bump, hfull]
  rw [if_pos (by decide)]
  exact (calibrate_clear_fields S
    { p with calls := Function.update p.calls i ((42000 + 1) % u64) } hflag).2 j

theorem reachable_counters_at_most_threshold_witness :
    Reachable insertionSortImpl
        ((BuffPool.empty.bump insertionSortImpl ⟨0, by decide⟩).retain (zeroBuffer 3 8)) ∧
      ∀ j : Fin steps,
        ((BuffPool.empty.bump insertionSortImpl ⟨0, by decide⟩).retain (zeroBuffer 3 8)).calls j
          ≤ 42000 :=
  have hr : Reachable insertionSortImpl
      ((BuffPool.empty.bump insertionSortImpl ⟨0, by decide⟩).retain (zeroBuffer 3 8)) :=
    Reachable.put (zeroBuffer 3 8) Reachable.init
      (Put_of_index insertionSortImpl BuffPool.empty (zeroBuffer 3 8) ⟨0, by decide⟩ (by decide))
  ⟨hr, (reachable_counters_at_most_threshold insertionSortImpl _ hr).1⟩

/-! ## `findIndex` on the lengths of the size classes -/

theorem le_findIndexLoop : ∀ (fuel : Nat) (n : Int) (index : Nat),
    index ≤ findIndexLoop fuel n index := by
  intro fuel
  induction fuel with
  | zero => intro n index; exact le_refl _
  | succ f ih =>
    intro n index
    simp only [findIndexLoop]
    split
    · exact le_trans (Nat.le_succ _) (ih _ _)
    · exact le_refl _

/-- The loop of `findIndex` counts the binary digits of its argument: started
at `index` on `m`, it ends at most `k` higher exactly when `m < 2^k`. -/
theorem findIndexLoop_le_iff : ∀ (fuel m index k : Nat), m ≤ fuel →
    (findIndexLoop fuel (m : Int) index ≤ index + k ↔ m < 2 ^ k) := by
  intro fuel
  induction fuel with
  | zero =>
    intro m index k hm
    have h0 : m = 0 := by omega
    subst h0
    simp [findIndexLoop]
  | succ f ih =>
    intro m index k hm
    by_cases hpos : (m : Int) > 0
    · have hshift : (m : Int) >>> (1 : Nat) = ((m / 2 : Nat) : Int) := by
        rw [Int.shiftRight_eq_div_pow]
        norm_num
      simp only [findIndexLoop, if_pos hpos, hshift]
      have hm2 : m / 2 ≤ f := by omega
      cases k with
      | zero =>
        have hge := le_findIndexLoop f ((m / 2 : Nat) : Int) (index + 1)
        constructor
        · intro h; omega
        · intro h; simp at h; omega
      | succ k =>
        have := ih (m / 2) (index + 1) k hm2
        rw [pow_succ]
        constructor
        · intro h
          have h2 := this.mp (by omega)
          omega
        · intro h
          have h2 := this.mpr (by omega)
          omega
    · have h0 : m = 0 := by omega
      subst h0
      simp [findIndexLoop]

/-- For a length within the size classes, `findIndex` is at most `i` exactly
when the length fits the class of size `64 * 2^i`. -/
theorem findIndex_le_iff (n : Int) (h0 : 0 ≤ n) (h1 : n ≤ 64 * 2 ^ 19) (i : Nat) :
    findIndex n ≤ i ↔ n ≤ 64 * 2 ^ i := by
  have hshift : (n - 1) >>> minimumBitSize = (n - 1) / 64 := by
    rw [Int.shiftRight_eq_div_pow]
    rfl
  have hpow : (0 : Int) < 2 ^ i := by positivity
  by_cases hn : n = 0
  · subst hn
    have : findIndex 0 = 0 := by decide
    rw [this]
    constructor
    · intro _; positivity
    · intro _; exact Nat.zero_le _
  · obtain ⟨m, hm⟩ : ∃ m : Nat, (n - 1) / 64 = (m : Int) :=
      ⟨((n - 1) / 64).toNat, by omega⟩
    have hloop : ∀ k, findIndexLoop m (m : Int) 0 ≤ k ↔ m < 2 ^ k := by
      intro k
      have := findIndexLoop_le_iff m m 0 k (le_refl _)
      simpa using this
    have h19 : findIndexLoop m (m : Int) 0 ≤ 19 := by
      rw [hloop 19]
      have : (m : Int) < 2 ^ 19 := by rw [← hm]; omega
      exact_mod_cast this
    have hfi : findIndex n = findIndexLoop m (m : Int) 0 := by
      simp only [findIndex, hshift, hm, Int.toNat_ofNat]
      rw [if_neg]
      simp only [steps]
      omega
    rw [hfi, hloop i]
    have hcast : (m < 2 ^ i) ↔ ((m : Int) < 2 ^ i) := by
      constructor
      · intro h; exact_mod_cast h
      · intro h; exact_mod_cast h
    rw [hcast, ← hm]
    generalize (2 : Int) ^ i = K at hpow ⊢
    omega

/-- C12: for lengths up to the last size class, `findIndex` is the least `i`
with `n <= 64 * 2^i`: it is 0 for `0 <= n <= 64`, and it is `i` for
`64 * 2^(i-1) < n <= 64 * 2^i` with `1 <= i <= 19`. -/
theorem findIndex_is_least_class (n : Int) (h0 : 0 ≤ n) (h1 : n ≤ 64 * 2 ^ 19) :
    (n ≤ 64 → findIndex n = 0) ∧
      (∀ i : Nat, 1 ≤ i → i ≤ 19 → 64 * 2 ^ (i - 1) < n → n ≤ 64 * 2 ^ i → findIndex n = i) ∧
      n ≤ 64 * 2 ^ findIndex n ∧ (∀ j : Nat, n ≤ 64 * 2 ^ j → findIndex n ≤ j) ∧
      findIndex n ≤ 19 := by
  refine ⟨fun h => ?_, fun i hi1 _ hlo hhi => ?_, ?_, fun j hj => ?_, ?_⟩
  · have := (findIndex_le_iff n h0 h1 0).mpr (by simpa using h)
    omega
  · have hle := (findIndex_le_iff n h0 h1 i).mpr hhi
    have hnot : ¬ findIndex n ≤ i - 1 := fun h =>
      absurd ((findIndex_le_iff n h0 h1 (i - 1)).mp h) (by omega)
    omega
  · exact (findIndex_le_iff n h0 h1 (findIndex n)).mp (le_refl _)
  · exact (findIndex_le_iff n h0 h1 j).mpr hj
  · exact (findIndex_le_iff n h0 h1 19).mpr h1

theorem findIndex_is_least_class_witness :
    ((0 : Int) ≤ 4000 ∧ (4000 : Int) ≤ 64 * 2 ^ 19) ∧ findIndex 4000 = 6 :=
  ⟨⟨by decide, by decide⟩,
    (findIndex_is_least_class 4000 (by decide) (by decide)).2.1 6 (by decide) (by decide)
      (by decide) (by decide)⟩

/-! ## `ReadFrom` -/

theorem Reader.Read_length (r : Reader) (avail : Nat) : (r.Read avail).1.length ≤ avail := by
  unfold Reader.Read
  split
  · split
    · assumption
    · simp
  · split
    · assumption
    · simp

theorem Reader.Read_error (r : Reader) (avail : Nat) (e : GoError)
    (h : (r.Read avail).2.1 = some e) : e = r.err ∧ (r.Read avail).1 = r.all := by
  unfold Reader.Read at h ⊢
  split at h
  · split at h <;> simp at h
  · rename_i hc
    split at h
    · rename_i hfit
      simp only [Option.some.injEq] at h
      simp [hc, hfit, h, Reader.all]
    · simp at h

theorem Reader.Read_nil (r : Reader) (avail : Nat) (hpos : 0 < avail)
    (h : (r.Read avail).2.1 = none) :
    r.all = (r.Read avail).1 ++ (r.Read avail).2.2.all ∧ (r.Read avail).2.2.err = r.err ∧
      (r.Read avail).2.2.size < r.size := by
  unfold Reader.Read at h ⊢
  split at h
  · rename_i c cs hc
    split at h
    · rename_i hfit
      simp only [hc, hfit, if_true, Reader.all, Reader.size, List.foldr_cons, List.length_cons,
        List.length_append]
      refine ⟨trivial, trivial, ?_⟩
      omega
    · rename_i hfit
      simp only [hc, hfit, if_false, Reader.all, Reader.size, List.foldr_cons, List.length_cons,
        List.length_append, List.length_drop, ← List.append_assoc, List.take_append_drop]
      refine ⟨trivial, trivial, ?_⟩
      omega
  · rename_i hc
    split at h
    · simp at h
    · rename_i hfit
      simp only [hc, hfit, if_false, Reader.all, Reader.size, List.foldr_nil, List.length_nil,
        List.length_drop, List.take_append_drop]
      refine ⟨trivial, trivial, ?_⟩
      omega

theorem grow_facts (p : List UInt8) (n max : Nat) (hp : p.length = max) (hn : n ≤ max)
    (hmax : 0 < max) :
    (if n = max then goCopy (List.replicate (if n = max then max * 2 else max) 0) p else p).length
        = (if n = max then max * 2 else max) ∧
      n < (if n = max then max * 2 else max) ∧
      (if n = max then goCopy (List.replicate (if n = max then max * 2 else max) 0) p
        else p).take n = p.take n := by
  by_cases h : n = max
  · simp only [if_pos h, goCopy, List.length_replicate, List.length_append, List.length_take,
      List.length_drop, hp]
    refine ⟨by omega, by omega, ?_⟩
    rw [List.take_append_of_le_length]
    · rw [List.take_take]
      congr 1
      omega
    · simp only [List.length_take, hp]; omega
  · simp only [if_neg h]
    exact ⟨hp, by omega, trivial⟩

theorem write_facts (p : List UInt8) (n : Nat) (bytes : List UInt8)
    (h : n + bytes.length ≤ p.length) :
    (p.take n ++ goCopy (p.drop n) bytes).length = p.length ∧
      (p.take n ++ goCopy (p.drop n) bytes).take (n + bytes.length) = p.take n ++ bytes := by
  have hn : (p.take n).length = n := by simp only [List.length_take]; omega
  have hb : bytes.take (p.drop n).length = bytes := by
    apply List.take_of_length_le
    simp only [List.length_drop]; omega
  constructor
  · simp only [goCopy, List.length_append, List.length_take, List.length_drop]
    omega
  · simp only [goCopy, hb, ← List.append_assoc]
    rw [List.take_append_of_le_length (by simp only [List.length_append, hn]; omega)]
    apply List.take_of_length_le
    simp only [List.length_append, hn]; omega

/-- With more iterations allowed than `reader.size`, the loop of `ReadFrom`
returns: the reader's error, and a slice whose first `n` bytes are the old
first `n` bytes followed by all the bytes of the reader. -/
theorem ReadFromLoop_spec : ∀ (fuel : Nat) (r : Reader) (p : List UInt8) (n max : Nat),
    p.length = max → n ≤ max → 0 < max → r.size < fuel →
    ∃ p1 n1 max1, ReadFromLoop fuel r p n max = some (p1, n1, max1, r.err) ∧
      p1.take n1 = p.take n ++ r.all ∧ n1 = n + r.all.length ∧ p1.length = max1 ∧
      n1 ≤ max1 := by
  intro fuel
  induction fuel with
  | zero => intro r p n max _ _ _ h; omega
  | succ f ih =>
    intro r p n max hp hn hmax hfuel
    obtain ⟨hlen1, hlt1, htake1⟩ := grow_facts p n max hp hn hmax
    simp only [ReadFromLoop]
    generalize hmax1 : (if n = max then max * 2 else max) = max1 at hlen1 hlt1 htake1 ⊢
    generalize hp1 : (if n = max then goCopy (List.replicate max1 0) p else p) = p1
      at hlen1 htake1 ⊢
    have havail : 0 < (p1.drop n).length := by
      simp only [List.length_drop, hlen1]; omega
    have hRlen := Reader.Read_length r (p1.drop n).length
    have hRerr := Reader.Read_error r (p1.drop n).length
    have hRnil := Reader.Read_nil r (p1.drop n).length havail
    rcases hR : r.Read (p1.drop n).length with ⟨bytes, err, r1⟩
    rw [hR] at hRlen hRerr hRnil
    simp only at hRlen hRerr hRnil ⊢
    have hfit : n + bytes.length ≤ p1.length := by
      simp only [List.length_drop] at hRlen; omega
    obtain ⟨hlen2, htake2⟩ := write_facts p1 n bytes hfit
    cases err with
    | some e =>
      obtain ⟨he, hall⟩ := hRerr e rfl
      refine ⟨p1.take n ++ goCopy (p1.drop n) bytes, n + bytes.length, max1, ?_, ?_, ?_, ?_, ?_⟩
      · simp only [he]
      · rw [htake2, htake1, hall]
      · rw [hall]
      · rw [hlen2, hlen1]
      · rw [← hlen1]; exact hfit
    | none =>
      obtain ⟨hall, herr, hsize⟩ := hRnil rfl
      obtain ⟨p3, n3, max3, hloop, htake3, hn3, hlen3, hle3⟩ :=
        ih r1 (p1.take n ++ goCopy (p1.drop n) bytes) (n + bytes.length) max1
          (by rw [hlen2, hlen1]) (by rw [← hlen1]; exact hfit) (by omega) (by omega)
      refine ⟨p3, n3, max3, ?_, ?_, ?_, hlen3, hle3⟩
      · simp only [hloop, herr]
      · rw [htake3, htake2, htake1, hall, List.append_assoc]
      · rw [hn3, hall, List.length_append]; omega

/-- C11: for a buffer holding `c` and a reader that delivers finitely many
chunks and then ends with the error `e`, `ReadFrom` returns; the buffer then
holds `c` followed by every byte delivered (those delivered with `e`
included), the count is the number of bytes delivered, and the error is `nil`
when `e` is `io.EOF` and `e` itself otherwise. -/
theorem ReadFrom_appends_all_bytes (bf : Buffer) (reader : Reader) (h : bf.buff.WF) :
    ∃ bf1 : Buffer,
      bf.ReadFrom reader = some (bf1, (reader.all.length : Int),
        if reader.err = GoError.EOF then none else some reader.err) ∧
      bf1.Bytes = bf.Bytes ++ reader.all ∧ bf1.Len = bf.Len + reader.all.length := by
  have hwf : bf.buff.data.length ≤ bf.buff.cap := h
  have hinit : ∃ p0 max0,
      (if bf.buff.cap = 0 then List.replicate 64 0
        else bf.buff.data ++ List.replicate (bf.buff.cap - bf.buff.data.length) 0) = p0 ∧
      (if bf.buff.cap = 0 then 64 else bf.buff.cap) = max0 ∧ p0.length = max0 ∧
      bf.buff.data.length ≤ max0 ∧ 0 < max0 ∧ p0.take bf.buff.data.length = bf.buff.data := by
    by_cases hc : bf.buff.cap = 0
    · have hd : bf.buff.data = [] := List.eq_nil_of_length_eq_zero (by omega)
      refine ⟨_, _, rfl, rfl, ?_⟩
      simp [hc, hd]
    · refine ⟨_, _, rfl, rfl, ?_⟩
      simp only [if_neg hc, List.length_append, List.length_replicate]
      refine ⟨by omega, hwf, by omega, ?_⟩
      rw [List.take_append_of_le_length (le_refl _), List.take_length]
  obtain ⟨p0, max0, hp0, hmax0, hlen0, hle0, hpos0, htake0⟩ := hinit
  obtain ⟨p1, n1, max1, hloop, htake, hn1, _, _⟩ :=
    ReadFromLoop_spec (reader.size + 1) reader p0 bf.buff.data.length max0 hlen0 hle0 hpos0
      (Nat.lt_succ_self _)
  refine ⟨{ buff := { data := p1.take n1, cap := max1 } }, ?_, ?_, ?_⟩
  · have hcount : (n1 : Int) - (bf.buff.data.length : Int) = (reader.all.length : Int) := by
      rw [hn1]; push_cast; omega
    simp only [Buffer.ReadFrom, ByteSlice.len, hp0, hmax0, hloop, hcount]
  · show p1.take n1 = bf.buff.data ++ reader.all
    rw [htake, htake0]
  · show (p1.take n1).length = bf.buff.data.length + reader.all.length
    rw [htake, htake0, List.length_append]

theorem ReadFrom_appends_all_bytes_witness :
    (zeroBuffer 2 4).buff.WF ∧
      ∃ bf1 : Buffer,
        (zeroBuffer 2 4).ReadFrom sampleReader = some (bf1, (sampleReader.all.length : Int),
          if sampleReader.err = GoError.EOF then none else some sampleReader.err) ∧
        bf1.Bytes = (zeroBuffer 2 4).Bytes ++ sampleReader.all ∧
        bf1.Len = (zeroBuffer 2 4).Len + sampleReader.all.length :=
  ⟨by decide, ReadFrom_appends_all_bytes (zeroBuffer 2 4) sampleReader (by decide)⟩

/-! ## Which classes determine `maxSize` -/

theorem sumCalls_eq_runningSum (a : callSizes) : sumCalls a = runningSum 0 a := rfl

/-- The second loop of `calibrate`, described by the prefix it goes through:
the running sum stays within `maxSum` before every element of the prefix and
exceeds it after the prefix unless the prefix is the whole slice; the result is
the largest of the initial `maximumSize` and the sizes in the prefix. -/
theorem accumulate_prefix (maxSum : Nat) :
    ∀ (a : callSizes) (callSum maximumSize : Nat),
      touchedCount maxSum a callSum ≤ a.length ∧
      (∀ j, j < touchedCount maxSum a callSum → runningSum callSum (a.take j) ≤ maxSum) ∧
      (touchedCount maxSum a callSum = a.length ∨
        runningSum callSum (a.take (touchedCount maxSum a callSum)) > maxSum) ∧
      (∀ c ∈ a.take (touchedCount maxSum a callSum),
        c.size ≤ accumulate maxSum a callSum maximumSize) ∧
      (accumulate maxSum a callSum maximumSize = maximumSize ∨
        ∃ c ∈ a.take (touchedCount maxSum a callSum),
          c.size = accumulate maxSum a callSum maximumSize) := by
  intro a
  induction a with
  | nil =>
    intro callSum maximumSize
    simp [touchedCount, accumulate]
  | cons x rest ih =>
    intro callSum maximumSize
    by_cases hbreak : callSum > maxSum
    · simp only [touchedCount, accumulate, if_pos hbreak, List.take_zero, runningSum,
        List.foldl_nil]
      refine ⟨Nat.zero_le _, fun j hj => absurd hj (Nat.not_lt_zero _), Or.inr hbreak, ?_,
        Or.inl trivial⟩
      intro c hc
      exact absurd hc (List.not_mem_nil _)
    · obtain ⟨hlen, hbefore, hafter, hsizes, hmax⟩ :=
        ih ((callSum + x.calls) % u64) (if x.size > maximumSize then x.size else maximumSize)
      have hge := le_accumulate maxSum rest ((callSum + x.calls) % u64)
        (if x.size > maximumSize then x.size else maximumSize)
      simp only [touchedCount, accumulate, if_neg hbreak, List.length_cons]
      have htake : ∀ k, (x :: rest).take (1 + k) = x :: rest.take k := by
        intro k; rw [Nat.add_comm]; rfl
      rw [htake]
      refine ⟨by omega, ?_, ?_, ?_, ?_⟩
      · intro j hj
        cases j with
        | zero => simp only [List.take_zero, runningSum, List.foldl_nil]; omega
        | succ j =>
          have := hbefore j (by omega)
          simpa [runningSum] using this
      · rcases hafter with h | h
        · left; omega
        · right; simpa [runningSum] using h
      · intro c hc
        rcases List.mem_cons.mp hc with h | h
        · rw [h]
          refine le_trans ?_ hge
          split <;> omega
        · exact hsizes c h
      · rcases hmax with h | ⟨c, hc, h⟩
        · rw [h]
          by_cases hx : x.size > maximumSize
          · right
            exact ⟨x, List.mem_cons_self _ _, by rw [if_pos hx]⟩
          · left
            rw [if_neg hx]
        · right
          exact ⟨c, List.mem_cons_of_mem _ hc, h⟩

theorem touchedCount_pos (maxSum : Nat) (x : callSize) (rest : callSizes) :
    1 ≤ touchedCount maxSum (x :: rest) 0 := by
  simp only [touchedCount, if_neg (Nat.not_lt_zero maxSum)]
  omega

/-- C14 (amended): with `a` the sorted class list and `maxSum` the value
`uint64(float64(T) * 0.95)` computed from the total `T`, `calibrate` sets
`maxSize` to the largest class size among the first `k` classes of `a`, where
`k >= 1` marks the shortest prefix whose cumulative call count exceeds `maxSum`
(all 20 classes when no prefix does): the running sum is at most `maxSum`
before each of these classes, and classes after them do not influence
`maxSize`. -/
theorem calibrate_maxSize_is_largest_of_prefix (S : SortImpl) (p : BuffPool)
    (h : p.calibrating = 0) :
    ∃ k : Nat, 1 ≤ k ∧ k ≤ 20 ∧
      (∀ j, j < k → sumCalls ((S.sort (snapshot p.calls)).take j)
        ≤ percentileOf (sumCalls (snapshot p.calls))) ∧
      (k = 20 ∨ sumCalls ((S.sort (snapshot p.calls)).take k)
        > percentileOf (sumCalls (snapshot p.calls))) ∧
      (∀ c ∈ (S.sort (snapshot p.calls)).take k, c.size ≤ (p.calibrate S).maxSize) ∧
      (∃ c ∈ (S.sort (snapshot p.calls)).take k, c.size = (p.calibrate S).maxSize) := by
  have hlen := sorted_snapshot_length S p.calls
  rw [calibrate_of_clear S p h]
  show ∃ k : Nat, 1 ≤ k ∧ k ≤ 20 ∧ _ ∧ _ ∧
    (∀ c ∈ (S.sort (snapshot p.calls)).take k, c.size ≤ accumulate _ _ _ _) ∧
    (∃ c ∈ (S.sort (snapshot p.calls)).take k, c.size = accumulate _ _ _ _)
  obtain ⟨hk, hbefore, hafter, hsizes, hmax⟩ :=
    accumulate_prefix (percentileOf (sumCalls (snapshot p.calls))) (S.sort (snapshot p.calls)) 0
      ((S.sort (snapshot p.calls)).headD { calls := 0, size := 0 }).size
  cases hs : S.sort (snapshot p.calls) with
  | nil => rw [hs] at hlen; exact absurd hlen (by decide)
  | cons x rest =>
    rw [hs] at hk hbefore hafter hsizes hmax hlen
    simp only [List.headD_cons] at hsizes hmax ⊢
    have hpos := touchedCount_pos (percentileOf (sumCalls (snapshot p.calls))) x rest
    refine ⟨touchedCount (percentileOf (sumCalls (snapshot p.calls))) (x :: rest) 0, hpos,
      ?_, hbefore, ?_, hsizes, ?_⟩
    · rw [← show (x :: rest).length = 20 from hlen]; exact hk
    · rw [← show (x :: rest).length = 20 from hlen]; exact hafter
    · rcases hmax with h0 | h0
      · refine ⟨x, ?_, h0.symm⟩
        obtain ⟨k, hk1⟩ : ∃ k, touchedCount (percentileOf (sumCalls (snapshot p.calls)))
            (x :: rest) 0 = k + 1 := ⟨_, (Nat.sub_add_cancel hpos).symm⟩
        rw [hk1]
        exact List.mem_cons_self _ _
      · exact h0

theorem calibrate_maxSize_is_largest_of_prefix_witness :
    exactly95.calibrating = 0 ∧
      ∃ k : Nat, 1 ≤ k ∧ k ≤ 20 ∧
        (∀ j, j < k → sumCalls ((insertionSortImpl.sort (snapshot exactly95.calls)).take j)
          ≤ percentileOf (sumCalls (snapshot exactly95.calls))) ∧
        (k = 20 ∨ sumCalls ((insertionSortImpl.sort (snapshot exactly95.calls)).take k)
          > percentileOf (sumCalls (snapshot exactly95.calls))) ∧
        (∀ c ∈ (insertionSortImpl.sort (snapshot exactly95.calls)).take k,
          c.size ≤ (exactly95.calibrate insertionSortImpl).maxSize) ∧
        (∃ c ∈ (insertionSortImpl.sort (snapshot exactly95.calls)).take k,
          c.size = (exactly95.calibrate insertionSortImpl).maxSize) :=
  ⟨rfl, calibrate_maxSize_is_largest_of_prefix insertionSortImpl exactly95 rfl⟩

/-- C14 as stated fails: with 95 calls in the class of size 64 and 5 in the
class of size 128 the total is 100 and the first class alone has 95% of it, so
the shortest prefix with at least 95% is that class and its largest size is
64; `calibrate` stores `maxSize = 128`, because the running sum 95 does not
exceed `maxSum = 95` and the loop goes on to the second class. -/
theorem calibrate_goes_past_exactly_95_percent :
    sumCalls (snapshot exactly95.calls) = 100 ∧
      percentileOf (sumCalls (snapshot exactly95.calls)) = 95 ∧
      (insertionSortImpl.sort (snapshot exactly95.calls)).take 2
        = [{ calls := 95, size := 64 }, { calls := 5, size := 128 }] ∧
      maxSizeBySpec 100 (insertionSortImpl.sort (snapshot exactly95.calls)) 0 64 = 64 ∧
      (exactly95.calibrate insertionSortImpl).maxSize = 128 := by
  decide

/-! ## The `float64` computation of `maxSum` -/

theorem le_bitLengthLoop : ∀ (fuel n acc : Nat), acc ≤ bitLengthLoop fuel n acc := by
  intro fuel
  induction fuel with
  | zero => intro n acc; exact le_refl _
  | succ f ih =>
    intro n acc
    simp only [bitLengthLoop]
    split
    · exact le_trans (Nat.le_succ _) (ih _ _)
    · exact le_refl _

theorem bitLengthLoop_le_iff : ∀ (fuel m acc k : Nat), m ≤ fuel →
    (bitLengthLoop fuel m acc ≤ acc + k ↔ m < 2 ^ k) := by
  intro fuel
  induction fuel with
  | zero =>
    intro m acc k hm
    have h0 : m = 0 := by omega
    subst h0
    simp [bitLengthLoop]
  | succ f ih =>
    intro m acc k hm
    by_cases hpos : m > 0
    · simp only [bitLengthLoop, if_pos hpos]
      have hm2 : m / 2 ≤ f := by omega
      cases k with
      | zero =>
        have hge := le_bitLengthLoop f (m / 2) (acc + 1)
        constructor
        · intro h; omega
        · intro h; simp at h; omega
      | succ k =>
        have := ih (m / 2) (acc + 1) k hm2
        rw [pow_succ]
        constructor
        · intro h
          have h2 := this.mp (by omega)
          omega
        · intro h
          have h2 := this.mpr (by omega)
          omega
    · have h0 : m = 0 := by omega
      subst h0
      simp [bitLengthLoop]

/-- `bitLength n` is the least `k` with `n < 2^k`. -/
theorem bitLength_le_iff (n k : Nat) : bitLength n ≤ k ↔ n < 2 ^ k := by
  have := bitLengthLoop_le_iff n n 0 k (le_refl _)
  simpa [bitLength] using this

/-- Rounding to 53 bits of a number of more than 53 bits: with `2^d` the unit
in the last place, the result is a multiple of `2^d` within half a unit. -/
theorem roundTo53_spec (n : Nat) (h : 2 ^ 53 ≤ n) :
    ∃ d : Nat, 1 ≤ d ∧ 2 ^ d * 2 ^ 52 ≤ n ∧ n < 2 ^ d * 2 ^ 53 ∧ 2 ^ d ∣ roundTo53 n ∧
      2 * n ≤ 2 * roundTo53 n + 2 ^ d ∧ 2 * roundTo53 n ≤ 2 * n + 2 ^ d := by
  have hL : ¬ bitLength n ≤ 53 := by
    rw [bitLength_le_iff]; omega
  have hupper : n < 2 ^ bitLength n := (bitLength_le_iff n _).mp (le_refl _)
  have hlower : ¬ n < 2 ^ (bitLength n - 1) := by
    rw [← bitLength_le_iff]; omega
  obtain ⟨d, hd⟩ : ∃ d, bitLength n = d + 1 + 53 := ⟨bitLength n - 54, by omega⟩
  have e1 : bitLength n - 53 = d + 1 := by omega
  have e2 : bitLength n - 1 = (d + 1) + 52 := by omega
  rw [e2, pow_add] at hlower
  rw [hd, pow_add] at hupper
  refine ⟨d + 1, by omega, by omega, hupper, ?_⟩
  have hnot : ¬ n < 2 ^ 53 := by omega
  simp only [roundTo53, if_neg hnot, e1, Nat.add_sub_cancel, Nat.shiftRight_eq_div_pow]
  have hD : 2 ^ (d + 1) = 2 * 2 ^ d := by rw [pow_succ]; omega
  have hdm := Nat.div_add_mod n (2 ^ (d + 1))
  have hmod : n % 2 ^ (d + 1) < 2 ^ (d + 1) := Nat.mod_lt _ (by positivity)
  generalize n % 2 ^ (d + 1) = r at hdm hmod ⊢
  generalize n / 2 ^ (d + 1) = q at hdm ⊢
  refine ⟨Dvd.intro_left _ rfl, ?_⟩
  split
  · rename_i hc
    have hr : 2 ^ d ≤ r := by
      rcases hc with hc | hc
      · omega
      · omega
    rw [Nat.add_mul, Nat.one_mul, Nat.mul_comm q]
    generalize 2 ^ (d + 1) * q = X at hdm ⊢
    omega
  · rename_i hc
    have hr : r ≤ 2 ^ d := by
      by_contra hgt
      exact hc (Or.inl (by omega))
    rw [Nat.mul_comm q]
    generalize 2 ^ (d + 1) * q = X at hdm ⊢
    omega

/-- Rounding to 53 bits raises a number by at most one part in `2^53`. -/
theorem roundTo53_upper (n : Nat) : roundTo53 n * 2 ^ 53 ≤ n * (2 ^ 53 + 1) := by
  by_cases h : n < 2 ^ 53
  · simp only [roundTo53, if_pos h]
    omega
  · obtain ⟨d, _, hlo, _, _, _, hup⟩ := roundTo53_spec n (by omega)
    generalize 2 ^ d = D at hlo hup
    generalize roundTo53 n = R at hup ⊢
    norm_num at hlo ⊢
    omega

/-- For a non-zero total, `maxSum` is below the total. -/
theorem percentileOf_lt (t : Nat) (h : 0 < t) : percentileOf t < t := by
  have h1 := roundTo53_upper t
  have h2 := roundTo53_upper (roundTo53 t * maximumPercentileBits)
  unfold percentileOf
  rw [Nat.div_lt_iff_lt_mul (by positivity)]
  generalize roundTo53 (roundTo53 t * maximumPercentileBits) = Y at h2 ⊢
  generalize roundTo53 t = X at h1 h2
  simp only [maximumPercentileBits] at h2
  norm_num at h1 h2 ⊢
  omega

/-- For a total below `2^53`, `maxSum + 1` is at least 95% of the total. -/
theorem percentileOf_succ_covers (t : Nat) (h : t < 2 ^ 53) :
    19 * t ≤ 20 * (percentileOf t + 1) := by
  unfold percentileOf
  have ht : roundTo53 t = t := by simp only [roundTo53, if_pos h]
  rw [ht]
  by_cases hsmall : t * maximumPercentileBits < 2 ^ 53
  · simp only [maximumPercentileBits] at hsmall
    norm_num at hsmall
    omega
  · obtain ⟨d, _, hlo, hhi, hdvd, hnear, _⟩ :=
      roundTo53_spec (t * maximumPercentileBits) (by omega)
    have hd53 : d ≤ 53 := by
      by_contra hgt
      have hpow : 2 ^ 54 ≤ 2 ^ d := Nat.pow_le_pow_right (by decide) (by omega)
      simp only [maximumPercentileBits] at hlo
      norm_num at hlo hpow h
      omega
    have hD53 : 2 ^ d ∣ 2 ^ 53 := pow_dvd_pow 2 hd53
    generalize roundTo53 (t * maximumPercentileBits) = R at hdvd hnear ⊢
    have hrem : 2 ^ d ∣ R % 2 ^ 53 := (Nat.dvd_mod_iff hD53).mpr hdvd
    have hremlt : R % 2 ^ 53 < 2 ^ 53 := Nat.mod_lt _ (by positivity)
    have hgap : R % 2 ^ 53 + 2 ^ d ≤ 2 ^ 53 := by
      have h1 : 2 ^ d ∣ 2 ^ 53 - R % 2 ^ 53 := Nat.dvd_sub' hD53 hrem
      have h2 := Nat.le_of_dvd (by omega) h1
      omega
    have hdm := Nat.div_add_mod R (2 ^ 53)
    generalize R % 2 ^ 53 = rho at hgap hdm
    generalize R / 2 ^ 53 = Q at hdm ⊢
    generalize 2 ^ d = D at hlo hhi hnear hgap
    simp only [maximumPercentileBits] at hlo hhi hnear
    norm_num at hlo hhi hnear hgap hdm ⊢
    omega

/-! ## How much of the total the classes within `maxSize` cover -/

theorem runningSum_eq_sum : ∀ (a : callSizes) (s : Nat),
    s + (a.map callSize.calls).sum < u64 → runningSum s a = s + (a.map callSize.calls).sum := by
  intro a
  induction a with
  | nil => intro s _; simp [runningSum]
  | cons x rest ih =>
    intro s h
    simp only [List.map_cons, List.sum_cons] at h ⊢
    have hx : (s + x.calls) % u64 = s + x.calls := Nat.mod_eq_of_lt (by omega)
    have := ih (s + x.calls) (by omega)
    simp only [runningSum, List.foldl_cons, hx] at this ⊢
    rw [this]
    omega

theorem snapshot_calls (calls : Fin steps → Nat) :
    (snapshot calls).map callSize.calls = (List.finRange steps).map calls := by
  simp only [snapshot, List.map_map]
  rfl

theorem sorted_calls_sum (S : SortImpl) (calls : Fin steps → Nat) :
    ((S.sort (snapshot calls)).map callSize.calls).sum = totalCalls calls := by
  rw [((S.perm (snapshot calls)).map callSize.calls).sum_eq, snapshot_calls]
  rfl

theorem sumCalls_snapshot (calls : Fin steps → Nat) (h : totalCalls calls < u64) :
    sumCalls (snapshot calls) = totalCalls calls := by
  have := runningSum_eq_sum (snapshot calls) 0 (by rw [snapshot_calls]; simpa [totalCalls] using h)
  rw [sumCalls_eq_runningSum, this, snapshot_calls]
  simp [totalCalls]

theorem coveredCalls_eq (calls : Fin steps → Nat) (m : Nat) :
    coveredCalls calls m
      = (((snapshot calls).filter (fun c => c.size ≤ m)).map callSize.calls).sum := by
  simp only [coveredCalls, snapshot, List.filter_map, List.map_map]
  congr 1

/-- The counts of any part of the sorted list whose sizes are within `m` are
counted in `coveredCalls`. -/
theorem sublist_sum_le_covered (S : SortImpl) (calls : Fin steps → Nat) (m : Nat)
    (pre : callSizes) (hsub : pre.Sublist (S.sort (snapshot calls)))
    (hsize : ∀ c ∈ pre, c.size ≤ m) :
    (pre.map callSize.calls).sum ≤ coveredCalls calls m := by
  have hfil : pre.filter (fun c => c.size ≤ m) = pre :=
    List.filter_eq_self.mpr (fun c hc => by simpa using hsize c hc)
  have h1 : (pre.filter (fun c => c.size ≤ m)).Sublist
      ((S.sort (snapshot calls)).filter (fun c => c.size ≤ m)) := hsub.filter _
  rw [hfil] at h1
  have h2 := (h1.map callSize.calls).sum_le_sum (fun _ _ => Nat.zero_le _)
  have h3 := (((S.perm (snapshot calls)).filter (fun c => c.size ≤ m)).map callSize.calls).sum_eq
  rw [coveredCalls_eq, ← h3]
  exact h2

/-- C15 (amended): for every counter snapshot whose total call count `T` is
below `2^53`, after `calibrate` the drained counts of the size classes whose
size is at most the stored `maxSize` sum to at least 95% of `T`. -/
theorem calibrate_covers_95_percent (S : SortImpl) (p : BuffPool) (h : p.calibrating = 0)
    (hT : totalCalls p.calls < 2 ^ 53) :
    95 * totalCalls p.calls ≤ 100 * coveredCalls p.calls (p.calibrate S).maxSize := by
  have hu : totalCalls p.calls < u64 := by
    have : (2 : Nat) ^ 53 < u64 := by decide
    omega
  have hsum := sumCalls_snapshot p.calls hu
  rw [calibrate_of_clear S p h]
  show 95 * totalCalls p.calls ≤ 100 * coveredCalls p.calls (accumulate _ _ _ _)
  rw [hsum]
  obtain ⟨_, _, hafter, hsizes, _⟩ :=
    accumulate_prefix (percentileOf (totalCalls p.calls)) (S.sort (snapshot p.calls)) 0
      ((S.sort (snapshot p.calls)).headD { calls := 0, size := 0 }).size
  generalize accumulate (percentileOf (totalCalls p.calls)) (S.sort (snapshot p.calls)) 0
    ((S.sort (snapshot p.calls)).headD { calls := 0, size := 0 }).size = maxSize at hsizes ⊢
  generalize touchedCount (percentileOf (totalCalls p.calls)) (S.sort (snapshot p.calls)) 0 = k
    at hafter hsizes
  have hcov := sublist_sum_le_covered S p.calls maxSize ((S.sort (snapshot p.calls)).take k)
    (List.take_sublist _ _) hsizes
  have hpre : (((S.sort (snapshot p.calls)).take k).map callSize.calls).sum
      ≤ totalCalls p.calls := by
    rw [← sorted_calls_sum S p.calls]
    exact ((List.take_sublist k _).map callSize.calls).sum_le_sum (fun _ _ => Nat.zero_le _)
  rcases hafter with hall | hbreak
  · have : (S.sort (snapshot p.calls)).take k = S.sort (snapshot p.calls) := by
      rw [hall]; exact List.take_length _
    rw [this, sorted_calls_sum] at hcov
    omega
  · rw [runningSum_eq_sum _ 0 (by omega)] at hbreak
    have h95 := percentileOf_succ_covers (totalCalls p.calls) hT
    omega

theorem calibrate_covers_95_percent_witness :
    (tied4.calibrating = 0 ∧ totalCalls tied4.calls < 2 ^ 53) ∧
      95 * totalCalls tied4.calls
        ≤ 100 * coveredCalls tied4.calls (tied4.calibrate insertionSortImpl).maxSize :=
  ⟨⟨rfl, by decide⟩, calibrate_covers_95_percent insertionSortImpl tied4 rfl (by decide)⟩

/-- C15 as stated fails: the counters total `T = 2^55`, `calibrate` computes
`maxSum = 34227357168015768` and stops after the first class, whose
`34227357168015769` calls are less than 95% of `T`; it stores `maxSize = 64`,
and the classes within that size hold only those calls. -/
theorem calibrate_coverage_below_95_percent :
    totalCalls huge55.calls = 2 ^ 55 ∧
      percentileOf (sumCalls (snapshot huge55.calls)) = 34227357168015768 ∧
      (huge55.calibrate insertionSortImpl).maxSize = 64 ∧
      coveredCalls huge55.calls (huge55.calibrate insertionSortImpl).maxSize
        = 34227357168015769 ∧
      ¬ (95 * totalCalls huge55.calls
        ≤ 100 * coveredCalls huge55.calls (huge55.calibrate insertionSortImpl).maxSize) := by
  decide

/-! ## The order of classes with equal counts -/

theorem snapshot_nodup (calls : Fin steps → Nat) : (snapshot calls).Nodup := by
  unfold snapshot
  refine List.Nodup.map ?_ (List.nodup_finRange steps)
  intro i j hij
  simp only [callSize.mk.injEq, Nat.shiftLeft_eq] at hij
  have h2 : 2 ^ i.val = 2 ^ j.val := Nat.eq_of_mul_eq_mul_left (by decide) hij.2
  exact Fin.ext (Nat.pow_right_injective (le_refl 2) h2)

/-- In a list sorted by descending count the classes with a non-zero count
come first. -/
theorem sorted_split_positive : ∀ (a : callSizes),
    a.Pairwise (fun x y => ¬ callSize.Less y x) →
    a = a.filter (fun c => 0 < c.calls) ++ a.filter (fun c => c.calls = 0) := by
  intro a
  induction a with
  | nil => intro _; rfl
  | cons x rest ih =>
    intro h
    obtain ⟨hx, hrest⟩ := List.pairwise_cons.mp h
    by_cases hpos : 0 < x.calls
    · have hz : ¬ x.calls = 0 := by omega
      simp only [List.filter_cons, hpos, hz, decide_True, decide_False, if_true,
        Bool.false_eq_true, if_false, List.cons_append]
      exact congrArg _ (ih hrest)
    · have hz : x.calls = 0 := by omega
      have hall : ∀ y ∈ rest, y.calls = 0 := by
        intro y hy
        have := hx y hy
        simp only [callSize.Less, gt_iff_lt, not_lt] at this
        omega
      have h1 : rest.filter (fun c => 0 < c.calls) = [] :=
        List.filter_eq_nil_iff.mpr (fun y hy => by simp [hall y hy])
      have h2 : rest.filter (fun c => c.calls = 0) = rest :=
        List.filter_eq_self.mpr (fun y hy => by simp [hall y hy])
      simp only [List.filter_cons, hpos, hz, decide_True, decide_False, if_true,
        Bool.false_eq_true, if_false, h1, h2, List.nil_append]
      rfl

/-- When no two classes share a non-zero count, the classes with a non-zero
count are in the same order under every sort. -/
theorem sorted_positive_unique (S1 S2 : SortImpl) (calls : Fin steps → Nat)
    (hdistinct : ∀ i j : Fin steps, calls i = calls j → 0 < calls i → i = j) :
    (S1.sort (snapshot calls)).filter (fun c => 0 < c.calls)
      = (S2.sort (snapshot calls)).filter (fun c => 0 < c.calls) := by
  have hstrict : ∀ S : SortImpl,
      ((S.sort (snapshot calls)).filter (fun c => 0 < c.calls)).Pairwise
        (fun x y => x.calls > y.calls) := by
    intro S
    have hnd : ((S.sort (snapshot calls)).filter (fun c => 0 < c.calls)).Nodup :=
      (((S.perm (snapshot calls)).nodup_iff).mpr (snapshot_nodup calls)).filter _
    have hsorted := (S.sorted (snapshot calls)).filter (fun c => decide (0 < c.calls))
    have hboth := hsorted.and hnd
    refine List.Pairwise.imp_of_mem ?_ hboth
    intro x y hx hy hxy
    obtain ⟨hle, hne⟩ := hxy
    simp only [callSize.Less, gt_iff_lt, not_lt] at hle
    have hx1 := List.mem_filter.mp hx
    have hy1 := List.mem_filter.mp hy
    obtain ⟨i, hi⟩ := (mem_snapshot calls x).mp ((S.perm _).mem_iff.mp hx1.1)
    obtain ⟨j, hj⟩ := (mem_snapshot calls y).mp ((S.perm _).mem_iff.mp hy1.1)
    have hxpos : 0 < x.calls := by simpa using hx1.2
    by_contra hnot
    have heq : x.calls = y.calls := by omega
    rw [hi, hj] at heq
    simp only at heq
    have hij := hdistinct i j heq (by rw [hi] at hxpos; exact hxpos)
    rw [hi, hj, hij] at hne
    exact hne rfl
  have hperm : ((S1.sort (snapshot calls)).filter (fun c => 0 < c.calls)).Perm
      ((S2.sort (snapshot calls)).filter (fun c => 0 < c.calls)) :=
    (((S1.perm (snapshot calls)).trans (S2.perm (snapshot calls)).symm)).filter _
  haveI : IsAntisymm callSize (fun x y => x.calls > y.calls) :=
    ⟨fun a b h1 h2 => absurd h1 (by omega)⟩
  exact List.eq_of_perm_of_sorted hperm (hstrict S1) (hstrict S2)

/-- Once the running sum exceeds `maxSum` at the end of `a`, what follows `a`
in the slice does not change the result of the loop. -/
theorem accumulate_append (maxSum : Nat) (z : callSizes) :
    ∀ (a : callSizes) (callSum maximumSize : Nat), runningSum callSum a > maxSum →
      accumulate maxSum (a ++ z) callSum maximumSize = accumulate maxSum a callSum maximumSize := by
  intro a
  induction a with
  | nil =>
    intro callSum maximumSize h
    simp only [runningSum, List.foldl_nil] at h
    cases z with
    | nil => rfl
    | cons y ys => simp only [List.nil_append, accumulate, if_pos h]
  | cons x rest ih =>
    intro callSum maximumSize h
    simp only [List.cons_append, accumulate]
    split
    · rfl
    · exact ih _ _ (by simpa [runningSum] using h)

theorem zero_filter_sum (a : callSizes) :
    ((a.filter (fun c => c.calls = 0)).map callSize.calls).sum = 0 := by
  apply List.sum_eq_zero
  intro n hn
  obtain ⟨c, hc, hcn⟩ := List.mem_map.mp hn
  have := (List.mem_filter.mp hc).2
  rw [← hcn]
  simpa using this

/-- C16 (amended): for every counter snapshot with a non-zero total (below
`2^64`) in which no two classes have the same non-zero call count, the pair
(`defaultSize`, `maxSize`) computed by `calibrate` is the same for every
ordering of the 20 classes that is descending by call count; the order of the
classes with count 0 does not change the result. -/
theorem calibrate_independent_of_zero_order (S1 S2 : SortImpl) (p : BuffPool)
    (hflag : p.calibrating = 0) (hpos : 0 < totalCalls p.calls)
    (hT : totalCalls p.calls < 2 ^ 64)
    (hdistinct : ∀ i j : Fin steps, p.calls i = p.calls j → 0 < p.calls i → i = j) :
    (p.calibrate S1).defaultSize = (p.calibrate S2).defaultSize ∧
      (p.calibrate S1).maxSize = (p.calibrate S2).maxSize := by
  have hu : totalCalls p.calls < u64 := hT
  have hsum := sumCalls_snapshot p.calls hu
  have hmax := percentileOf_lt (totalCalls p.calls) hpos
  have hshape : ∀ S : SortImpl, ∃ x rest,
      (S.sort (snapshot p.calls)).filter (fun c => 0 < c.calls) = x :: rest ∧
      ((S.sort (snapshot p.calls)).headD { calls := 0, size := 0 }) = x ∧
      accumulate (percentileOf (totalCalls p.calls)) (S.sort (snapshot p.calls)) 0 x.size
        = accumulate (percentileOf (totalCalls p.calls)) (x :: rest) 0 x.size := by
    intro S
    have hsplit := sorted_split_positive _ (S.sorted (snapshot p.calls))
    have htot := sorted_calls_sum S p.calls
    have hP : (((S.sort (snapshot p.calls)).filter (fun c => 0 < c.calls)).map
        callSize.calls).sum = totalCalls p.calls := by
      rw [hsplit, List.map_append, List.sum_append, zero_filter_sum] at htot
      simpa using htot
    generalize (S.sort (snapshot p.calls)).filter (fun c => 0 < c.calls) = P at hsplit hP
    generalize (S.sort (snapshot p.calls)).filter (fun c => c.calls = 0) = Z at hsplit
    cases P with
    | nil =>
      simp only [List.map_nil, List.sum_nil] at hP
      omega
    | cons x rest =>
      refine ⟨x, rest, rfl, ?_, ?_⟩
      · rw [hsplit]; rfl
      · rw [hsplit]
        apply accumulate_append
        rw [runningSum_eq_sum _ 0 (by omega)]
        omega
  obtain ⟨x1, r1, hP1, hh1, ha1⟩ := hshape S1
  obtain ⟨x2, r2, hP2, hh2, ha2⟩ := hshape S2
  have huniq := sorted_positive_unique S1 S2 p.calls hdistinct
  rw [hP1, hP2] at huniq
  obtain ⟨hx, hr⟩ := List.cons.inj huniq
  subst hx
  subst hr
  rw [calibrate_of_clear S1 p hflag, calibrate_of_clear S2 p hflag]
  simp only [hsum, hh1, hh2, ha1, ha2, and_self]

theorem calibrate_independent_of_zero_order_witness :
    (exactly95.calibrating = 0 ∧ 0 < totalCalls exactly95.calls ∧
      totalCalls exactly95.calls < 2 ^ 64 ∧
      ∀ i j : Fin steps, exactly95.calls i = exactly95.calls j → 0 < exactly95.calls i → i = j) ∧
    (exactly95.calibrate insertionSortImpl).defaultSize
        = (exactly95.calibrate reversedSortImpl).defaultSize ∧
      (exactly95.calibrate insertionSortImpl).maxSize
        = (exactly95.calibrate reversedSortImpl).maxSize :=
  ⟨⟨rfl, by decide, by decide, by decide⟩,
    calibrate_independent_of_zero_order insertionSortImpl reversedSortImpl exactly95 rfl
      (by decide) (by decide) (by decide)⟩

/-- C16 as stated fails: with 92, 4 and 4 calls in the classes of size 64, 128
and 256, two orderings that are both descending by call count differ in the
order of the two classes with 4 calls, and `calibrate` stores `maxSize = 128`
under one and `maxSize = 256` under the other. With all counters 0 even
`defaultSize` differs. -/
theorem calibrate_depends_on_tie_order :
    (insertionSortImpl.sort (snapshot tied4.calls)).take 3
        = [{ calls := 92, size := 64 }, { calls := 4, size := 128 }, { calls := 4, size := 256 }] ∧
      (reversedSortImpl.sort (snapshot tied4.calls)).take 3
        = [{ calls := 92, size := 64 }, { calls := 4, size := 256 }, { calls := 4, size := 128 }] ∧
      (tied4.calibrate insertionSortImpl).maxSize = 128 ∧
      (tied4.calibrate reversedSortImpl).maxSize = 256 ∧
      (BuffPool.empty.calibrate insertionSortImpl).defaultSize = 64 ∧
      (BuffPool.empty.calibrate reversedSortImpl).defaultSize = 33554432 := by
  decide

end memoryrescue
